import Mathlib

/-!
Verification development for the side-by-side diff renderer
`analyze/util/diff2HtmlCompare.py` of the forkuptool repository.

The Python source is shallowly embedded: Python `str` values are modelled
as `List Char`, Python `int`-or-`''` line numbers as `Option Nat`, and the
generators of `difflib` (which `CodeDiff.getDiffDetails` calls through
`difflib._mdiff`) as total Lean functions producing lists.  Python floats
(the similarity ratios of `difflib.SequenceMatcher`) are modelled by exact
rationals `ℚ`; the values compared here are small dyadic-style fractions,
and none of the theorems below depend on rounding behaviour.
-/

namespace Diff2Html

/-- Python strings are modelled as lists of characters. -/
abbrev Str := List Char

/-- Coerce a Lean string literal to the `Str` model. -/
def sL (s : String) : Str := s.data

/-- Python `line.replace(old, new)` for single characters. -/
def pyReplace (old new : Char) (s : Str) : Str :=
  s.map (fun c => if c = old then new else c)

/-- Column-tracking core of Python `str.expandtabs(tabsize)`: a tab advances
the column to the next multiple of `tabsize` (emitting that many spaces);
`tabsize = 0` removes tabs; `\n` and `\r` reset the column. -/
def pyExpandtabsGo (tabsize : Nat) : Nat → Str → Str
  | _, [] => []
  | col, c :: cs =>
    if c = '\t' then
      if tabsize > 0 then
        let pad := tabsize - col % tabsize
        List.replicate pad ' ' ++ pyExpandtabsGo tabsize (col + pad) cs
      else
        pyExpandtabsGo tabsize col cs
    else if c = '\n' ∨ c = '\r' then
      c :: pyExpandtabsGo tabsize 0 cs
    else
      c :: pyExpandtabsGo tabsize (col + 1) cs

/-- Python `str.expandtabs(tabsize)`. -/
def pyExpandtabs (tabsize : Nat) (s : Str) : Str :=
  pyExpandtabsGo tabsize 0 s

/-- Python `s.rstrip('\n')`: remove every trailing newline character. -/
def pyRstripNl (s : Str) : Str :=
  (s.reverse.dropWhile (fun c => c = '\n')).reverse

/-- The `expand_tabs` helper defined inside `CodeDiff.getDiffDetails`
(diff2HtmlCompare.py lines 322-330): real spaces are hidden as NUL, tabs
are expanded, the expansion artifacts are re-encoded as tab characters
(to be replaced with markup later), the real spaces are restored, and any
trailing newline is stripped. -/
def expand_tabs (tabSize : Nat) (line : Str) : Str :=
  let l1 := pyReplace ' ' '\x00' line
  let l2 := pyExpandtabs tabSize l1
  let l3 := pyReplace ' ' '\t' l2
  pyRstripNl (pyReplace '\x00' ' ' l3)

/-- Python `difflib.IS_CHARACTER_JUNK`: a character is junk iff it is a
space or a tab. -/
def IS_CHARACTER_JUNK (ch : Char) : Bool :=
  ch = ' ' || ch = '\t'

/-- ASCII fragment of Python `str.isspace`, used by `_keep_original_ws`. -/
def pyIsSpace (c : Char) : Bool :=
  c = ' ' || c = '\t' || c = '\n' || c = '\r' || c = '\x0b' || c = '\x0c'

/-- Python `s.rstrip()`: remove all trailing whitespace. -/
def pyRstrip (s : Str) : Str :=
  (s.reverse.dropWhile pyIsSpace).reverse

/-!
## SequenceMatcher

Embedding of `difflib.SequenceMatcher` (difflib.py lines 44-663), generic
over the element type: `Differ.compare` runs it on sequences of lines and
`Differ._fancy_replace` on sequences of characters.  The junk predicate is
an `Option` because Python passes `None` (`Differ` with `linejunk=None`);
`autojunk` is the constructor default `True` in every call site used here.
-/

section SequenceMatcher

variable {α : Type} [DecidableEq α]

/-- Ascending list of positions of `x` in `b`: the value stored for key `x`
by the first loop of `SequenceMatcher.__chain_b`. -/
def indicesOf (b : List α) (x : α) : List Nat :=
  (List.range b.length).filter (fun j => decide (b[j]? = some x))

/-- Membership in `SequenceMatcher.bjunk`: `x` occurs in `b` and the junk
predicate holds (no junk set when `isjunk` is `None`). -/
def bjunkContains (isjunk : Option (α → Bool)) (b : List α) (x : α) : Bool :=
  match isjunk with
  | none => false
  | some f => decide (x ∈ b) && f x

/-- Lookup in `SequenceMatcher.b2j` after the junk and popular purges of
`__chain_b`: junk keys and (with `autojunk` and `len(b) >= 200`) keys with
more than `len(b) // 100 + 1` occurrences resolve to no positions. -/
def b2j (isjunk : Option (α → Bool)) (autojunk : Bool) (b : List α) (x : α) :
    List Nat :=
  if bjunkContains isjunk b x then []
  else if autojunk && decide (b.length ≥ 200) &&
      decide ((indicesOf b x).length > b.length / 100 + 1) then []
  else indicesOf b x

/-- Python `dict.get(j, 0)` on the association list modelling `j2len`. -/
def lookupD (l : List (Nat × Nat)) (j : Nat) : Nat :=
  ((l.find? (fun p => decide (p.1 = j))).map (fun p => p.2)).getD 0

/-- Inner `for j in b2j.get(a[i], nothing)` loop of `find_longest_match`:
`continue` below `blo`, `break` at `bhi` (the index list is ascending),
record the chain length `j2len.get(j-1, 0) + 1` and update the running
best block.  Python's `j - 1` for `j = 0` is `-1`, a key never present,
hence the explicit guard. -/
def flmInnerLoop (j2len : List (Nat × Nat)) (blo bhi i : Nat) :
    List Nat → List (Nat × Nat) → Nat × Nat × Nat →
    List (Nat × Nat) × (Nat × Nat × Nat)
  | [], newj2len, best => (newj2len, best)
  | j :: js, newj2len, best =>
    if j < blo then flmInnerLoop j2len blo bhi i js newj2len best
    else if j ≥ bhi then (newj2len, best)
    else
      let k := (if j = 0 then 0 else lookupD j2len (j - 1)) + 1
      let best' := if k > best.2.2 then (i + 1 - k, j + 1 - k, k) else best
      flmInnerLoop j2len blo bhi i js ((j, k) :: newj2len) best'

/-- Outer `for i in range(alo, ahi)` loop of `find_longest_match`,
threading the `j2len` dictionary between iterations. -/
def flmILoop (isjunk : Option (α → Bool)) (autojunk : Bool) (a b : List α)
    (blo bhi : Nat) :
    List Nat → List (Nat × Nat) → Nat × Nat × Nat → Nat × Nat × Nat
  | [], _, best => best
  | i :: is, j2len, best =>
    let js := match a[i]? with
      | some ai => b2j isjunk autojunk b ai
      | none => []
    let r := flmInnerLoop j2len blo bhi i js [] best
    flmILoop isjunk autojunk a b blo bhi is r.1 r.2

/-- Guard of the two downward extension loops of `find_longest_match`:
`besti > alo and bestj > blo and isbjunk(b[bestj-1]) == junkPhase and
a[besti-1] == b[bestj-1]`. -/
def extendDownCond (junkPhase : Bool) (isjunk : Option (α → Bool))
    (a b : List α) (alo blo bi bj : Nat) : Bool :=
  decide (bi > alo) && decide (bj > blo) &&
    (match b[bj - 1]?, a[bi - 1]? with
     | some y, some x => (bjunkContains isjunk b y == junkPhase) && decide (x = y)
     | _, _ => false)

/-- Downward extension loop of `find_longest_match` (non-junk phase for
`junkPhase = false`, junk phase for `true`), structurally recursive on
`besti` (which the loop decrements; at `besti = 0` the guard
`besti > alo` is already false). -/
def smExtendDown (junkPhase : Bool) (isjunk : Option (α → Bool))
    (a b : List α) (alo blo : Nat) : Nat → Nat → Nat → Nat × Nat × Nat
  | 0, bj, bs => (0, bj, bs)
  | bi + 1, bj, bs =>
    if extendDownCond junkPhase isjunk a b alo blo (bi + 1) bj then
      smExtendDown junkPhase isjunk a b alo blo bi (bj - 1) (bs + 1)
    else (bi + 1, bj, bs)

/-- Guard of the two upward extension loops of `find_longest_match`. -/
def extendUpCond (junkPhase : Bool) (isjunk : Option (α → Bool))
    (a b : List α) (ahi bhi bi bj bs : Nat) : Bool :=
  decide (bi + bs < ahi) && decide (bj + bs < bhi) &&
    (match b[bj + bs]?, a[bi + bs]? with
     | some y, some x => (bjunkContains isjunk b y == junkPhase) && decide (x = y)
     | _, _ => false)

/-- Upward extension loop of `find_longest_match`, structurally recursive
on the countdown `d = ahi - (besti + bestsize)`.  The countdown is exact:
the guard `besti + bestsize < ahi` keeps it positive while the loop runs
and is false once it reaches zero, so the wrapper below has precisely the
semantics of the Python `while` loop. -/
def smExtendUpGo (junkPhase : Bool) (isjunk : Option (α → Bool))
    (a b : List α) (ahi bhi bi bj : Nat) : Nat → Nat → Nat
  | 0, bs => bs
  | d + 1, bs =>
    if extendUpCond junkPhase isjunk a b ahi bhi bi bj bs then
      smExtendUpGo junkPhase isjunk a b ahi bhi bi bj d (bs + 1)
    else bs

/-- Upward extension loop of `find_longest_match`; only `bestsize` grows. -/
def smExtendUp (junkPhase : Bool) (isjunk : Option (α → Bool))
    (a b : List α) (ahi bhi : Nat) (bi bj bs : Nat) : Nat :=
  smExtendUpGo junkPhase isjunk a b ahi bhi bi bj (ahi - (bi + bs)) bs

/-- `SequenceMatcher.find_longest_match(alo, ahi, blo, bhi)`
(difflib.py lines 305-419): the dynamic-programming scan followed by the
four extension loops (extend by non-junk, then suck up matching junk). -/
def find_longest_match (isjunk : Option (α → Bool)) (autojunk : Bool)
    (a b : List α) (alo ahi blo bhi : Nat) : Nat × Nat × Nat :=
  let best1 := flmILoop isjunk autojunk a b blo bhi
    (List.range' alo (ahi - alo)) [] (alo, blo, 0)
  let d1 := smExtendDown false isjunk a b alo blo best1.1 best1.2.1 best1.2.2
  let k3 := smExtendUp false isjunk a b ahi bhi d1.1 d1.2.1 d1.2.2
  let d2 := smExtendDown true isjunk a b alo blo d1.1 d1.2.1 k3
  let k5 := smExtendUp true isjunk a b ahi bhi d2.1 d2.2.1 d2.2.2
  (d2.1, d2.2.1, k5)

/-- Invariant satisfied by the running best block of `find_longest_match`:
either it is still the initial `(alo, blo, 0)`, or it is a nonempty block
lying inside the rectangle `[alo, ahi) × [blo, bhi)`. -/
def flmInv (alo blo ahi bhi : Nat) (t : Nat × Nat × Nat) : Prop :=
  (t.2.2 = 0 ∧ t.1 = alo ∧ t.2.1 = blo) ∨
  (1 ≤ t.2.2 ∧ alo ≤ t.1 ∧ blo ≤ t.2.1 ∧ t.1 + t.2.2 ≤ ahi ∧
    t.2.1 + t.2.2 ≤ bhi)

/-- Invariant of the `j2len` association list after `cnt` іterations of the
outer loop: keys lie in `[blo, bhi)` and chain lengths are bounded by both
the distance to `blo` and the number of processed rows. -/
def j2lenInv (blo bhi cnt : Nat) (m : List (Nat × Nat)) : Prop :=
  ∀ p ∈ m, blo ≤ p.1 ∧ p.1 < bhi ∧ p.2 + blo ≤ p.1 + 1 ∧ p.2 ≤ cnt

theorem lookupD_bound {blo bhi cnt : Nat} {m : List (Nat × Nat)}
    (hm : j2lenInv blo bhi cnt m) (x : Nat) :
    lookupD m x ≤ cnt ∧ (lookupD m x = 0 ∨ lookupD m x + blo ≤ x + 1) := by
  unfold lookupD
  cases h : m.find? (fun p => decide (p.1 = x)) with
  | none => simp
  | some p =>
    have hmem := List.mem_of_find?_eq_some h
    have hkey := List.find?_some h
    simp only [decide_eq_true_eq] at hkey
    have := hm p hmem
    simp only [Option.map_some', Option.getD_some]
    omega

theorem flmInnerLoop_inv {blo bhi alo ahi i : Nat} {j2len : List (Nat × Nat)}
    (hi₁ : alo ≤ i) (hi₂ : i < ahi)
    (hj : j2lenInv blo bhi (i - alo) j2len) :
    ∀ (js : List Nat) (acc : List (Nat × Nat)) (best : Nat × Nat × Nat),
    j2lenInv blo bhi (i + 1 - alo) acc → flmInv alo blo ahi bhi best →
    j2lenInv blo bhi (i + 1 - alo) (flmInnerLoop j2len blo bhi i js acc best).1 ∧
    flmInv alo blo ahi bhi (flmInnerLoop j2len blo bhi i js acc best).2 := by
  intro js
  induction js with
  | nil => intro acc best hacc hbest; exact ⟨hacc, hbest⟩
  | cons j js ih =>
    intro acc best hacc hbest
    by_cases h1 : j < blo
    · rw [flmInnerLoop, if_pos h1]; exact ih acc best hacc hbest
    · by_cases h2 : j ≥ bhi
      · rw [flmInnerLoop, if_neg h1, if_pos h2]; exact ⟨hacc, hbest⟩
      · rw [flmInnerLoop, if_neg h1, if_neg h2]
        have hval : (if j = 0 then 0 else lookupD j2len (j - 1)) ≤ i - alo ∧
            ((if j = 0 then 0 else lookupD j2len (j - 1)) = 0 ∨
              (if j = 0 then 0 else lookupD j2len (j - 1)) + blo ≤ j) := by
          by_cases hz : j = 0
          · simp [hz]
          · have := lookupD_bound hj (j - 1)
            simp only [if_neg hz]
            omega
        apply ih
        · intro p hp
          rcases List.mem_cons.1 hp with rfl | hp'
          · dsimp only
            omega
          · have := hacc p hp'
            omega
        · set k := (if j = 0 then 0 else lookupD j2len (j - 1)) + 1 with hk
          by_cases hgt : k > best.2.2
          · rw [if_pos hgt]
            right
            refine ⟨?_, ?_, ?_, ?_, ?_⟩ <;> (dsimp only; omega)
          · rw [if_neg hgt]; exact hbest

theorem flmILoop_inv {isjunk : Option (α → Bool)} {autojunk : Bool}
    {a b : List α} {blo bhi alo ahi : Nat} :
    ∀ (n start : Nat) (j2len : List (Nat × Nat)) (best : Nat × Nat × Nat),
    alo ≤ start → start + n ≤ ahi →
    j2lenInv blo bhi (start - alo) j2len → flmInv alo blo ahi bhi best →
    flmInv alo blo ahi bhi
      (flmILoop isjunk autojunk a b blo bhi (List.range' start n) j2len best) := by
  intro n
  induction n with
  | zero => intro start j2len best _ _ _ hbest; simpa [flmILoop] using hbest
  | succ n ih =>
    intro start j2len best h1 h2 hj hbest
    rw [List.range'_succ, flmILoop]
    have hstep := flmInnerLoop_inv h1 (by omega) hj
      (match a[start]? with
        | some ai => b2j isjunk autojunk b ai
        | none => []) [] best (by intro p hp; simp at hp) hbest
    exact ih (start + 1) _ _ (by omega) (by omega) hstep.1 hstep.2

theorem smExtendDown_spec (junkPhase : Bool) (isjunk : Option (α → Bool))
    (a b : List α) (alo blo : Nat) : ∀ bi bj bs,
    (smExtendDown junkPhase isjunk a b alo blo bi bj bs).1 +
        (smExtendDown junkPhase isjunk a b alo blo bi bj bs).2.2 = bi + bs ∧
    (smExtendDown junkPhase isjunk a b alo blo bi bj bs).2.1 +
        (smExtendDown junkPhase isjunk a b alo blo bi bj bs).2.2 = bj + bs ∧
    bs ≤ (smExtendDown junkPhase isjunk a b alo blo bi bj bs).2.2 ∧
    (alo ≤ bi → alo ≤ (smExtendDown junkPhase isjunk a b alo blo bi bj bs).1) ∧
    (blo ≤ bj → blo ≤ (smExtendDown junkPhase isjunk a b alo blo bi bj bs).2.1) ∧
    (bi = alo → smExtendDown junkPhase isjunk a b alo blo bi bj bs = (bi, bj, bs)) := by
  intro bi
  induction bi with
  | zero =>
    intro bj bs
    exact ⟨rfl, rfl, le_refl _, fun h => h, fun h => h, fun _ => rfl⟩
  | succ bi ih =>
    intro bj bs
    rw [smExtendDown]
    by_cases hc : extendDownCond junkPhase isjunk a b alo blo (bi + 1) bj = true
    · rw [if_pos hc]
      have hcc := hc
      simp only [extendDownCond, Bool.and_eq_true, decide_eq_true_eq] at hcc
      have hgt : bi + 1 > alo := hcc.1.1
      have hbj : bj > blo := hcc.1.2
      have := ih (bj - 1) (bs + 1)
      refine ⟨by omega, by omega, by omega, fun _ => by omega,
        fun _ => by omega, fun h => absurd h (by omega)⟩
    · rw [if_neg hc]
      exact ⟨rfl, rfl, le_refl _, fun h => h, fun h => h, fun _ => rfl⟩

theorem smExtendUpGo_spec (junkPhase : Bool) (isjunk : Option (α → Bool))
    (a b : List α) (ahi bhi bi bj : Nat) : ∀ d bs,
    bs ≤ smExtendUpGo junkPhase isjunk a b ahi bhi bi bj d bs ∧
    (bs < smExtendUpGo junkPhase isjunk a b ahi bhi bi bj d bs →
      bi + smExtendUpGo junkPhase isjunk a b ahi bhi bi bj d bs ≤ ahi ∧
      bj + smExtendUpGo junkPhase isjunk a b ahi bhi bi bj d bs ≤ bhi) := by
  intro d
  induction d with
  | zero =>
    intro bs
    exact ⟨le_refl _, fun h => absurd h (by rw [smExtendUpGo] at h ⊢; omega)⟩
  | succ d ih =>
    intro bs
    rw [smExtendUpGo]
    by_cases hc : extendUpCond junkPhase isjunk a b ahi bhi bi bj bs = true
    · rw [if_pos hc]
      simp only [extendUpCond, Bool.and_eq_true, decide_eq_true_eq] at hc
      have := ih (bs + 1)
      refine ⟨by omega, fun _ => ?_⟩
      rcases Nat.lt_or_ge (bs + 1)
          (smExtendUpGo junkPhase isjunk a b ahi bhi bi bj d (bs + 1)) with h | h
      · exact this.2 h
      · have h1 : smExtendUpGo junkPhase isjunk a b ahi bhi bi bj d (bs + 1) =
            bs + 1 := by omega
        rw [h1]
        omega
    · rw [if_neg hc]
      exact ⟨le_refl _, fun h => absurd h (by omega)⟩

theorem smExtendUp_spec (junkPhase : Bool) (isjunk : Option (α → Bool))
    (a b : List α) (ahi bhi : Nat) : ∀ bi bj bs,
    bs ≤ smExtendUp junkPhase isjunk a b ahi bhi bi bj bs ∧
    (bs < smExtendUp junkPhase isjunk a b ahi bhi bi bj bs →
      bi + smExtendUp junkPhase isjunk a b ahi bhi bi bj bs ≤ ahi ∧
      bj + smExtendUp junkPhase isjunk a b ahi bhi bi bj bs ≤ bhi) := by
  intro bi bj bs
  exact smExtendUpGo_spec junkPhase isjunk a b ahi bhi bi bj (ahi - (bi + bs)) bs

/-- The result of `find_longest_match` satisfies the block invariant:
an empty result sits at `(alo, blo)`, a nonempty one lies inside the
rectangle `[alo, ahi) × [blo, bhi)`. -/
theorem find_longest_match_inv (isjunk : Option (α → Bool)) (autojunk : Bool)
    (a b : List α) (alo ahi blo bhi : Nat) :
    flmInv alo blo ahi bhi (find_longest_match isjunk autojunk a b alo ahi blo bhi) := by
  have h1 : flmInv alo blo ahi bhi
      (flmILoop isjunk autojunk a b blo bhi (List.range' alo (ahi - alo)) []
        (alo, blo, 0)) := by
    rcases le_or_lt alo ahi with h | h
    · exact flmILoop_inv (ahi - alo) alo [] (alo, blo, 0) (le_refl _)
        (by omega) (by intro p hp; simp at hp) (Or.inl ⟨rfl, rfl, rfl⟩)
    · have hz : ahi - alo = 0 := by omega
      rw [hz]
      simp only [List.range']
      exact Or.inl ⟨rfl, rfl, rfl⟩
  rw [find_longest_match]
  rcases hB : flmILoop isjunk autojunk a b blo bhi (List.range' alo (ahi - alo)) []
      (alo, blo, 0) with ⟨i1, j1, s1⟩
  rw [hB] at h1
  dsimp only
  have hd1 := smExtendDown_spec false isjunk a b alo blo i1 j1 s1
  rcases hD1 : smExtendDown false isjunk a b alo blo i1 j1 s1 with ⟨i2, j2, s2⟩
  rw [hD1] at hd1
  dsimp only at hd1 ⊢
  have hinv1 : flmInv alo blo ahi bhi (i2, j2, s2) := by
    rcases h1 with ⟨hz, hi, hj⟩ | ⟨hk, hi, hj, hia, hjb⟩ <;> dsimp only at *
    · have heq := hd1.2.2.2.2.2 (by omega)
      left
      refine ⟨?_, ?_, ?_⟩ <;>
        (dsimp only; injection heq with e1 e2; injection e2; omega)
    · have h5 := hd1.2.2.2.1 hi
      have h6 := hd1.2.2.2.2.1 hj
      right
      refine ⟨?_, ?_, ?_, ?_, ?_⟩ <;> (dsimp only; omega)
  have hu1 := smExtendUp_spec false isjunk a b ahi bhi i2 j2 s2
  set k3 := smExtendUp false isjunk a b ahi bhi i2 j2 s2 with hk3
  have hinv2 : flmInv alo blo ahi bhi (i2, j2, k3) := by
    rcases Nat.lt_or_ge s2 k3 with h | h
    · have h2 := hu1.2 h
      rcases hinv1 with ⟨hz, hi, hj⟩ | ⟨hk, hi, hj, hia, hjb⟩ <;>
        dsimp only at * <;>
        (right; refine ⟨?_, ?_, ?_, ?_, ?_⟩ <;> (dsimp only; omega))
    · have heq : k3 = s2 := by omega
      rw [heq]
      exact hinv1
  have hd2 := smExtendDown_spec true isjunk a b alo blo i2 j2 k3
  rcases hD2 : smExtendDown true isjunk a b alo blo i2 j2 k3 with ⟨i4, j4, s4⟩
  rw [hD2] at hd2
  dsimp only at hd2 ⊢
  have hinv3 : flmInv alo blo ahi bhi (i4, j4, s4) := by
    rcases hinv2 with ⟨hz, hi, hj⟩ | ⟨hk, hi, hj, hia, hjb⟩ <;> dsimp only at *
    · have heq := hd2.2.2.2.2.2 (by omega)
      left
      refine ⟨?_, ?_, ?_⟩ <;>
        (dsimp only; injection heq with e1 e2; injection e2; omega)
    · have h5 := hd2.2.2.2.1 hi
      have h6 := hd2.2.2.2.2.1 hj
      right
      refine ⟨?_, ?_, ?_, ?_, ?_⟩ <;> (dsimp only; omega)
  have hu2 := smExtendUp_spec true isjunk a b ahi bhi i4 j4 s4
  set k5 := smExtendUp true isjunk a b ahi bhi i4 j4 s4 with hk5
  rcases Nat.lt_or_ge s4 k5 with h | h
  · have h2 := hu2.2 h
    rcases hinv3 with ⟨hz, hi, hj⟩ | ⟨hk, hi, hj, hia, hjb⟩ <;>
      dsimp only at * <;>
      (right; refine ⟨?_, ?_, ?_, ?_, ?_⟩ <;> (dsimp only; omega))
  · have heq : k5 = s4 := by omega
    rw [heq]
    exact hinv3

/-- A pending rectangle `(alo, ahi, blo, bhi)` of `get_matching_blocks`. -/
abbrev Region := Nat × Nat × Nat × Nat

/-- A matching block `(i, j, size)`. -/
abbrev Block := Nat × Nat × Nat

/-- Combined extent of a region, used as the termination measure of the
work-queue loop. -/
def regionSize (r : Region) : Nat := (r.2.1 - r.1) + (r.2.2.2 - r.2.2.1)

/-- Termination measure for the work queue of `get_matching_blocks`. -/
def queueMeasure (q : List Region) : Nat :=
  (q.map (fun r => 2 * regionSize r + 1)).sum

theorem queueMeasure_cons (r : Region) (q : List Region) :
    queueMeasure (r :: q) = 2 * regionSize r + 1 + queueMeasure q := by
  simp [queueMeasure]

/-- Conditional pushes of the two unknown sub-regions around a found block
(`queue.append((alo, i, blo, j))`, `queue.append((i+k, ahi, j+k, bhi))`).
Python's `queue.pop()` removes the most recently appended region, so the
queue is a stack, modelled with its top at the head; the later append ends
on top. -/
def mbPush (r : Region) (m : Block) (queue : List Region) : List Region :=
  let q1 := if r.1 < m.1 ∧ r.2.2.1 < m.2.1 then
    (r.1, m.1, r.2.2.1, m.2.1) :: queue else queue
  if m.1 + m.2.2 < r.2.1 ∧ m.2.1 + m.2.2 < r.2.2.2 then
    (m.1 + m.2.2, r.2.1, m.2.1 + m.2.2, r.2.2.2) :: q1 else q1

theorem mbPush_measure {r : Region} {m : Block} {queue : List Region}
    (hinv : flmInv r.1 r.2.2.1 r.2.1 r.2.2.2 m) (hk : m.2.2 ≠ 0) :
    queueMeasure (mbPush r m queue) < queueMeasure (r :: queue) := by
  rcases hinv with ⟨hz, _, _⟩ | ⟨h1, h2, h3, h4, h5⟩
  · exact absurd hz hk
  · unfold mbPush
    split <;> split <;>
      simp only [queueMeasure_cons, regionSize] <;> omega

/-- Work-queue loop of `SequenceMatcher.get_matching_blocks` (difflib.py
lines 450-463), structurally recursive on a countdown initialized to
`queueMeasure` of the starting queue.  Each iteration strictly decreases
`queueMeasure` (`mbPush_measure`), so the countdown never runs out; the
lemma `mbLoop_fuel` makes the countdown value immaterial. -/
def mbLoop (isjunk : Option (α → Bool)) (autojunk : Bool) (a b : List α) :
    Nat → List Region → List Block → List Block
  | 0, _, acc => acc
  | _ + 1, [], acc => acc
  | fuel + 1, r :: queue, acc =>
    let m := find_longest_match isjunk autojunk a b r.1 r.2.1 r.2.2.1 r.2.2.2
    if m.2.2 ≠ 0 then
      mbLoop isjunk autojunk a b fuel (mbPush r m queue) (acc ++ [m])
    else
      mbLoop isjunk autojunk a b fuel queue acc

theorem mbLoop_fuel (isjunk : Option (α → Bool)) (autojunk : Bool)
    (a b : List α) : ∀ f1 f2 (q : List Region) (acc : List Block),
    queueMeasure q ≤ f1 → queueMeasure q ≤ f2 →
    mbLoop isjunk autojunk a b f1 q acc = mbLoop isjunk autojunk a b f2 q acc := by
  intro f1
  induction f1 using Nat.strong_induction_on with
  | _ f1 ih =>
    intro f2 q acc h1 h2
    match f1, f2, q with
    | g1, g2, [] =>
      cases g1 <;> cases g2 <;> rfl
    | 0, _, r :: queue =>
      exact absurd h1 (by rw [queueMeasure_cons]; omega)
    | _ + 1, 0, r :: queue =>
      exact absurd h2 (by rw [queueMeasure_cons]; omega)
    | g1 + 1, g2 + 1, r :: queue =>
      rw [mbLoop, mbLoop]
      have hcons := queueMeasure_cons r queue
      by_cases hk : (find_longest_match isjunk autojunk a b
          r.1 r.2.1 r.2.2.1 r.2.2.2).2.2 ≠ 0
      · rw [if_pos hk, if_pos hk]
        have hlt : queueMeasure (mbPush r (find_longest_match isjunk autojunk
              a b r.1 r.2.1 r.2.2.1 r.2.2.2) queue) <
            queueMeasure (r :: queue) :=
          mbPush_measure
            (find_longest_match_inv isjunk autojunk a b r.1 r.2.1 r.2.2.1
              r.2.2.2) hk
        exact ih g1 (by omega) g2 _ _ (by omega) (by omega)
      · rw [if_neg hk, if_neg hk]
        exact ih g1 (by omega) g2 _ _ (by omega) (by omega)

/-- Python tuple comparison on `(i, j, size)` triples, as used by
`matching_blocks.sort()`. -/
def blockLe (x y : Block) : Prop :=
  x.1 < y.1 ∨ (x.1 = y.1 ∧ (x.2.1 < y.2.1 ∨ (x.2.1 = y.2.1 ∧ x.2.2 ≤ y.2.2)))

instance : DecidableRel blockLe := fun x y => by
  unfold blockLe
  infer_instance

/-- Adjacent-block collapsing loop of `get_matching_blocks` (difflib.py
lines 469-486), starting from the zero block `i1 = j1 = k1 = 0`. -/
def collapseLoop : Nat → Nat → Nat → List Block → List Block
  | i1, j1, k1, [] => if k1 ≠ 0 then [(i1, j1, k1)] else []
  | i1, j1, k1, (i2, j2, k2) :: rest =>
    if i1 + k1 = i2 ∧ j1 + k1 = j2 then collapseLoop i1 j1 (k1 + k2) rest
    else if k1 ≠ 0 then (i1, j1, k1) :: collapseLoop i2 j2 k2 rest
    else collapseLoop i2 j2 k2 rest

/-- `SequenceMatcher.get_matching_blocks` (difflib.py lines 421-490):
queue loop, sort, adjacency collapse and the `(la, lb, 0)` sentinel.
Python's stable `list.sort()` is modelled by insertion sort: the
lexicographic key is the whole triple, so ties hold only between equal
elements and every correct sort produces the same list. -/
def get_matching_blocks (isjunk : Option (α → Bool)) (autojunk : Bool)
    (a b : List α) : List Block :=
  let blocks := mbLoop isjunk autojunk a b
    (queueMeasure [(0, a.length, 0, b.length)]) [(0, a.length, 0, b.length)] []
  collapseLoop 0 0 0 (List.insertionSort blockLe blocks) ++
    [(a.length, b.length, 0)]

/-- Opcode tags of `SequenceMatcher.get_opcodes`. -/
inductive OpTag
  | replace
  | delete
  | insert
  | equal
deriving DecidableEq, Repr

/-- Cursor loop of `SequenceMatcher.get_opcodes` (difflib.py lines
521-545). -/
def getOpcodesLoop : Nat → Nat → List Block → List (OpTag × Nat × Nat × Nat × Nat)
  | _, _, [] => []
  | i, j, (ai, bj, size) :: rest =>
    (if i < ai ∧ j < bj then [(OpTag.replace, i, ai, j, bj)]
     else if i < ai then [(OpTag.delete, i, ai, j, bj)]
     else if j < bj then [(OpTag.insert, i, ai, j, bj)]
     else []) ++
    (if size ≠ 0 then [(OpTag.equal, ai, ai + size, bj, bj + size)] else []) ++
    getOpcodesLoop (ai + size) (bj + size) rest

/-- `SequenceMatcher.get_opcodes`. -/
def get_opcodes (isjunk : Option (α → Bool)) (autojunk : Bool)
    (a b : List α) : List (OpTag × Nat × Nat × Nat × Nat) :=
  getOpcodesLoop 0 0 (get_matching_blocks isjunk autojunk a b)

/-- `difflib._calculate_ratio`: Python computes the float
`2.0 * matches / length`, or `1.0` for empty input.  It is modelled as the
exact fraction `(numerator, denominator)` with positive denominator,
compared below by cross-multiplication; no theorem in this file depends on
floating-point rounding. -/
def calculateRatio (m len : Nat) : Nat × Nat :=
  if len ≠ 0 then (2 * m, len) else (1, 1)

/-- Strict `<` on the modelled ratios (cross-multiplication). -/
def ratioLt (x y : Nat × Nat) : Bool :=
  decide (x.1 * y.2 < y.1 * x.2)

/-- `SequenceMatcher.ratio`: twice the matched-element count over the total
length. -/
def smRatio (isjunk : Option (α → Bool)) (autojunk : Bool) (a b : List α) :
    Nat × Nat :=
  calculateRatio
    (((get_matching_blocks isjunk autojunk a b).map (fun t => t.2.2)).sum)
    (a.length + b.length)

/-- Loop of `SequenceMatcher.quick_ratio` over `self.a`, with the `avail`
dictionary as an association list over `Int` counts (they go negative). -/
def quickRatioLoop (b : List α) : List α → List (α × Int) → Nat → Nat
  | [], _, cnt => cnt
  | x :: rest, avail, cnt =>
    let numb : Int :=
      ((avail.find? (fun p => decide (p.1 = x))).map (fun p => p.2)).getD
        ((b.count x : Nat) : Int)
    quickRatioLoop b rest ((x, numb - 1) :: avail)
      (if numb > 0 then cnt + 1 else cnt)

/-- `SequenceMatcher.quick_ratio`: multiset-intersection upper bound. -/
def smQuickRatio (a b : List α) : Nat × Nat :=
  calculateRatio (quickRatioLoop b a [] 0) (a.length + b.length)

/-- `SequenceMatcher.real_quick_ratio`. -/
def smRealQuickRatio (a b : List α) : Nat × Nat :=
  calculateRatio (min a.length b.length) (a.length + b.length)

/-!
### Geometry of matching blocks

Disjointness bookkeeping for the work-queue loop of
`get_matching_blocks`: every found block lies inside its region, regions
in the queue are pairwise separated, and separation survives the split
around a found block.  These facts make the sorted block list a staircase
(`blockMono` chain), which `get_opcodes` walks without overlap.
-/

/-- A block lies inside a region. -/
def blockIn (r : Region) (m : Block) : Prop :=
  r.1 ≤ m.1 ∧ m.1 + m.2.2 ≤ r.2.1 ∧ r.2.2.1 ≤ m.2.1 ∧ m.2.1 + m.2.2 ≤ r.2.2.2

/-- `r` is a sub-rectangle of `s`. -/
def subRegion (r s : Region) : Prop :=
  s.1 ≤ r.1 ∧ r.2.1 ≤ s.2.1 ∧ s.2.2.1 ≤ r.2.2.1 ∧ r.2.2.2 ≤ s.2.2.2

/-- Block `x` ends before block `y` begins, in both coordinates. -/
def blockMono (x y : Block) : Prop :=
  x.1 + x.2.2 ≤ y.1 ∧ x.2.1 + x.2.2 ≤ y.2.1

/-- Two blocks are ordered-disjoint one way or the other. -/
def blockDisj (x y : Block) : Prop := blockMono x y ∨ blockMono y x

/-- A block is entirely before or entirely after a region. -/
def blockRegSep (m : Block) (r : Region) : Prop :=
  (m.1 + m.2.2 ≤ r.1 ∧ m.2.1 + m.2.2 ≤ r.2.2.1) ∨
  (r.2.1 ≤ m.1 ∧ r.2.2.2 ≤ m.2.1)

/-- Two regions are ordered-disjoint. -/
def regSep (r s : Region) : Prop :=
  (r.2.1 ≤ s.1 ∧ r.2.2.2 ≤ s.2.2.1) ∨ (s.2.1 ≤ r.1 ∧ s.2.2.2 ≤ r.2.2.1)

/-- A block within the global bounds. -/
def blockBound (la lb : Nat) (m : Block) : Prop :=
  m.1 + m.2.2 ≤ la ∧ m.2.1 + m.2.2 ≤ lb

/-- A region within the global bounds. -/
def regBound (la lb : Nat) (r : Region) : Prop := r.2.1 ≤ la ∧ r.2.2.2 ≤ lb

theorem blockRegSep_of_sub {m : Block} {r s : Region}
    (h : blockRegSep m s) (hrs : subRegion r s) : blockRegSep m r := by
  rcases h with ⟨h1, h2⟩ | ⟨h1, h2⟩
  · exact Or.inl ⟨by have := hrs.1; omega, by have := hrs.2.2.1; omega⟩
  · exact Or.inr ⟨by have := hrs.2.1; omega, by have := hrs.2.2.2; omega⟩

theorem regSep_of_sub {r s t : Region} (h : regSep s t) (hr : subRegion r s) :
    regSep r t := by
  rcases h with ⟨h1, h2⟩ | ⟨h1, h2⟩
  · exact Or.inl ⟨by have := hr.2.1; omega, by have := hr.2.2.2; omega⟩
  · exact Or.inr ⟨by have := hr.1; omega, by have := hr.2.2.1; omega⟩

theorem blockDisj_of_sep_in {x m : Block} {r : Region}
    (hsep : blockRegSep x r) (hm : blockIn r m) : blockDisj x m := by
  rcases hsep with ⟨h1, h2⟩ | ⟨h1, h2⟩
  · exact Or.inl ⟨by have := hm.1; omega, by have := hm.2.2.1; omega⟩
  · exact Or.inr ⟨by have := hm.2.1; omega, by have := hm.2.2.2; omega⟩

theorem blockRegSep_of_in_sep {m : Block} {r s : Region}
    (hm : blockIn r m) (h : regSep r s) : blockRegSep m s := by
  rcases h with ⟨h1, h2⟩ | ⟨h1, h2⟩
  · exact Or.inl ⟨by have := hm.2.1; omega, by have := hm.2.2.2; omega⟩
  · exact Or.inr ⟨by have := hm.1; omega, by have := hm.2.2.1; omega⟩

theorem blockIn_of_flmInv {r : Region} {m : Block}
    (h : flmInv r.1 r.2.2.1 r.2.1 r.2.2.2 m) (hk : m.2.2 ≠ 0) :
    blockIn r m := by
  rcases h with ⟨hz, _, _⟩ | ⟨_, h1, h2, h3, h4⟩
  · exact absurd hz hk
  · exact ⟨h1, h3, h2, h4⟩

theorem mbPush_mem {r : Region} {m : Block} {queue : List Region} :
    ∀ s ∈ mbPush r m queue, s ∈ queue ∨
      s = (r.1, m.1, r.2.2.1, m.2.1) ∨
      s = (m.1 + m.2.2, r.2.1, m.2.1 + m.2.2, r.2.2.2) := by
  intro s hs
  unfold mbPush at hs
  dsimp only at hs
  split at hs
  · rcases List.mem_cons.1 hs with h | hq
    · exact Or.inr (Or.inr h)
    · split at hq
      · rcases List.mem_cons.1 hq with h | hq'
        · exact Or.inr (Or.inl h)
        · exact Or.inl hq'
      · exact Or.inl hq
  · split at hs
    · rcases List.mem_cons.1 hs with h | hq
      · exact Or.inr (Or.inl h)
      · exact Or.inl hq
    · exact Or.inl hs

theorem mbPush_sub {r : Region} {m : Block} {queue : List Region}
    (hm : blockIn r m) :
    ∀ s ∈ mbPush r m queue, s ∈ queue ∨ subRegion s r := by
  intro s hs
  rcases mbPush_mem s hs with h | h | h
  · exact Or.inl h
  · exact Or.inr (h ▸ ⟨le_refl _, by dsimp only; have := hm.2.1; omega,
      le_refl _, by dsimp only; have := hm.2.2.2; omega⟩)
  · exact Or.inr (h ▸ ⟨by dsimp only; have := hm.1; omega, le_refl _,
      by dsimp only; have := hm.2.2.1; omega, le_refl _⟩)

theorem pairwise_mbPush {r : Region} {m : Block} {queue : List Region}
    (hm : blockIn r m)
    (hq : List.Pairwise regSep queue)
    (hsep : ∀ s ∈ queue, regSep r s) :
    List.Pairwise regSep (mbPush r m queue) := by
  have hsubL : subRegion (r.1, m.1, r.2.2.1, m.2.1) r :=
    ⟨le_refl _, by dsimp only; have := hm.2.1; omega, le_refl _,
     by dsimp only; have := hm.2.2.2; omega⟩
  have hsubR : subRegion (m.1 + m.2.2, r.2.1, m.2.1 + m.2.2, r.2.2.2) r :=
    ⟨by dsimp only; have := hm.1; omega, le_refl _,
     by dsimp only; have := hm.2.2.1; omega, le_refl _⟩
  have hsepL : ∀ s ∈ queue, regSep (r.1, m.1, r.2.2.1, m.2.1) s :=
    fun s hs => regSep_of_sub (hsep s hs) hsubL
  have hsepR : ∀ s ∈ queue,
      regSep (m.1 + m.2.2, r.2.1, m.2.1 + m.2.2, r.2.2.2) s :=
    fun s hs => regSep_of_sub (hsep s hs) hsubR
  have hLR : regSep (m.1 + m.2.2, r.2.1, m.2.1 + m.2.2, r.2.2.2)
      (r.1, m.1, r.2.2.1, m.2.1) := by
    exact Or.inr ⟨by dsimp only; omega, by dsimp only; omega⟩
  unfold mbPush
  dsimp only
  split
  · split
    · refine List.Pairwise.cons ?_ (List.Pairwise.cons hsepL hq)
      intro s hs
      rcases List.mem_cons.1 hs with h | h
      · exact h ▸ hLR
      · exact hsepR s h
    · exact List.Pairwise.cons hsepR hq
  · split
    · exact List.Pairwise.cons hsepL hq
    · exact hq

theorem mbLoop_inv (isjunk : Option (α → Bool)) (autojunk : Bool)
    (a b : List α) :
    ∀ (fuel : Nat) (queue : List Region) (acc : List Block),
    (∀ r ∈ queue, regBound a.length b.length r) →
    (∀ x ∈ acc, blockBound a.length b.length x ∧ 1 ≤ x.2.2) →
    List.Pairwise blockDisj acc →
    (∀ x ∈ acc, ∀ r ∈ queue, blockRegSep x r) →
    List.Pairwise regSep queue →
    (∀ x ∈ mbLoop isjunk autojunk a b fuel queue acc,
        blockBound a.length b.length x ∧ 1 ≤ x.2.2) ∧
    List.Pairwise blockDisj (mbLoop isjunk autojunk a b fuel queue acc) := by
  intro fuel
  induction fuel with
  | zero => intro queue acc _ hacc hpacc _ _; exact ⟨hacc, hpacc⟩
  | succ fuel ih =>
    intro queue acc hq hacc hpacc hsep hpq
    match queue with
    | [] => exact ⟨hacc, hpacc⟩
    | r :: queue =>
      rw [mbLoop]
      have hqr := hq r (List.mem_cons_self r queue)
      have hqt : ∀ s ∈ queue, regBound a.length b.length s :=
        fun s hs => hq s (List.mem_cons_of_mem r hs)
      have hpq' := List.pairwise_cons.1 hpq
      have hinv := find_longest_match_inv isjunk autojunk a b
        r.1 r.2.1 r.2.2.1 r.2.2.2
      by_cases hk : (find_longest_match isjunk autojunk a b
          r.1 r.2.1 r.2.2.1 r.2.2.2).2.2 ≠ 0
      · rw [if_pos hk]
        set m := find_longest_match isjunk autojunk a b
          r.1 r.2.1 r.2.2.1 r.2.2.2 with hm
        have hin : blockIn r m := blockIn_of_flmInv hinv hk
        have hmb : blockBound a.length b.length m ∧ 1 ≤ m.2.2 :=
          ⟨⟨by have := hin.2.1; have := hqr.1; omega,
            by have := hin.2.2.2; have := hqr.2; omega⟩, by omega⟩
        apply ih (mbPush r m queue) (acc ++ [m])
        · intro s hs
          rcases mbPush_sub hin s hs with h | h
          · exact hqt s h
          · exact ⟨by have := h.2.1; have := hqr.1; omega,
              by have := h.2.2.2; have := hqr.2; omega⟩
        · intro x hx
          rcases List.mem_append.1 hx with h | h
          · exact hacc x h
          · rw [List.mem_singleton.1 h]; exact hmb
        · rw [List.pairwise_append]
          refine ⟨hpacc, List.pairwise_singleton _ _, ?_⟩
          intro x hx y hy
          rw [List.mem_singleton.1 hy]
          exact blockDisj_of_sep_in (hsep x hx r (List.mem_cons_self r queue)) hin
        · intro x hx s hs
          rcases List.mem_append.1 hx with h | h
          · rcases mbPush_sub hin s hs with h' | h'
            · exact hsep x h s (List.mem_cons_of_mem r h')
            · exact blockRegSep_of_sub
                (hsep x h r (List.mem_cons_self r queue)) h'
          · rw [List.mem_singleton.1 h]
            rcases mbPush_mem s hs with h' | h' | h'
            · exact blockRegSep_of_in_sep hin (hpq'.1 s h')
            · exact h' ▸ Or.inr ⟨by dsimp only; omega, by dsimp only; omega⟩
            · exact h' ▸ Or.inl ⟨by dsimp only; omega, by dsimp only; omega⟩
        · exact pairwise_mbPush hin hpq'.2 hpq'.1
      · rw [if_neg hk]
        exact ih queue acc hqt hacc hpacc
          (fun x hx s hs => hsep x hx s (List.mem_cons_of_mem r hs)) hpq'.2

instance : IsTotal Block blockLe where
  total := by
    intro x y
    unfold blockLe
    omega

instance : IsTrans Block blockLe where
  trans := by
    intro x y z hxy hyz
    unfold blockLe at *
    omega

theorem chain_of_sorted :
    ∀ l : List Block, List.Pairwise blockLe l → List.Pairwise blockDisj l →
    (∀ x ∈ l, 1 ≤ x.2.2) → List.Chain' blockMono l := by
  intro l
  induction l with
  | nil => intro _ _ _; exact List.chain'_nil
  | cons x t ih =>
    intro hle hdisj hk
    match t with
    | [] => exact List.chain'_singleton x
    | y :: t =>
      rw [List.chain'_cons]
      have hle' := List.pairwise_cons.1 hle
      have hdisj' := List.pairwise_cons.1 hdisj
      refine ⟨?_, ih hle'.2 hdisj'.2
        (fun z hz => hk z (List.mem_cons_of_mem x hz))⟩
      have h1 := hle'.1 y (List.mem_cons_self y t)
      have h2 := hdisj'.1 y (List.mem_cons_self y t)
      have h3 := hk y (List.mem_cons_of_mem x (List.mem_cons_self y t))
      rcases h2 with h2 | h2
      · exact h2
      · unfold blockLe at h1
        unfold blockMono at h2 ⊢
        omega

theorem collapseLoop_spec (la lb : Nat) :
    ∀ (blocks : List Block) (i1 j1 k1 : Nat),
    List.Chain' blockMono ((i1, j1, k1) :: blocks) →
    (∀ x ∈ blocks, blockBound la lb x) →
    i1 + k1 ≤ la → j1 + k1 ≤ lb →
    List.Chain' blockMono (collapseLoop i1 j1 k1 blocks) ∧
    (∀ x ∈ collapseLoop i1 j1 k1 blocks, blockBound la lb x) ∧
    (∀ x ∈ (collapseLoop i1 j1 k1 blocks).head?, i1 ≤ x.1 ∧ j1 ≤ x.2.1) := by
  intro blocks
  induction blocks with
  | nil =>
    intro i1 j1 k1 _ _ hba hbb
    rw [collapseLoop]
    split
    · refine ⟨List.chain'_singleton _, ?_, ?_⟩
      · intro x hx
        rw [List.mem_singleton.1 hx]
        exact ⟨hba, hbb⟩
      · intro x hx
        simp only [List.head?_cons, Option.mem_def, Option.some.injEq] at hx
        rw [← hx]
        exact ⟨le_refl _, le_refl _⟩
    · exact ⟨List.chain'_nil, fun x hx => absurd hx (List.not_mem_nil x),
        fun x hx => by simp at hx⟩
  | cons hd rest ih =>
    intro i1 j1 k1 hchain hbound hba hbb
    rcases hd with ⟨i2, j2, k2⟩
    have hchain' := List.chain'_cons.1 hchain
    have hmono := hchain'.1
    have hb2 := hbound (i2, j2, k2) (List.mem_cons_self _ rest)
    have hb2a : i2 + k2 ≤ la := by have := hb2.1; dsimp only at this; omega
    have hb2b : j2 + k2 ≤ lb := by have := hb2.2; dsimp only at this; omega
    have hmono' : i1 + k1 ≤ i2 ∧ j1 + k1 ≤ j2 := by
      have h1 := hmono.1
      have h2 := hmono.2
      dsimp only at h1 h2
      exact ⟨h1, h2⟩
    have hbt : ∀ x ∈ rest, blockBound la lb x :=
      fun x hx => hbound x (List.mem_cons_of_mem _ hx)
    rw [collapseLoop]
    by_cases hadj : i1 + k1 = i2 ∧ j1 + k1 = j2
    · rw [if_pos hadj]
      refine ih i1 j1 (k1 + k2) ?_ hbt (by omega) (by omega)
      rw [List.chain'_cons']
      have ht := List.chain'_cons'.1 hchain'.2
      refine ⟨?_, ht.2⟩
      intro y hy
      have := ht.1 y hy
      unfold blockMono at this ⊢
      dsimp only at this ⊢
      omega
    · rw [if_neg hadj]
      have hrec := ih i2 j2 k2 hchain'.2 hbt hb2a hb2b
      by_cases hk1 : k1 ≠ 0
      · rw [if_pos hk1]
        refine ⟨?_, ?_, ?_⟩
        · rw [List.chain'_cons']
          refine ⟨?_, hrec.1⟩
          intro y hy
          have := hrec.2.2 y hy
          unfold blockMono
          dsimp only
          omega
        · intro x hx
          rcases List.mem_cons.1 hx with h | h
          · rw [h]; exact ⟨hba, hbb⟩
          · exact hrec.2.1 x h
        · intro x hx
          simp only [List.head?_cons, Option.mem_def, Option.some.injEq] at hx
          rw [← hx]
          exact ⟨le_refl _, le_refl _⟩
      · rw [if_neg hk1]
        refine ⟨hrec.1, hrec.2.1, ?_⟩
        intro x hx
        have := hrec.2.2 x hx
        omega

theorem get_matching_blocks_chain (isjunk : Option (α → Bool))
    (autojunk : Bool) (a b : List α) :
    List.Chain' blockMono (get_matching_blocks isjunk autojunk a b) ∧
    (get_matching_blocks isjunk autojunk a b).getLast? =
      some (a.length, b.length, 0) := by
  unfold get_matching_blocks
  have hraw := mbLoop_inv isjunk autojunk a b
    (queueMeasure [(0, a.length, 0, b.length)])
    [(0, a.length, 0, b.length)] []
    (by
      intro r hr
      rw [List.mem_singleton.1 hr]
      exact ⟨le_refl _, le_refl _⟩)
    (fun x hx => absurd hx (List.not_mem_nil x))
    List.Pairwise.nil
    (fun x hx => absurd hx (List.not_mem_nil x))
    (List.pairwise_singleton _ _)
  set raw := mbLoop isjunk autojunk a b
    (queueMeasure [(0, a.length, 0, b.length)])
    [(0, a.length, 0, b.length)] [] with hrawdef
  have hperm : List.Perm (List.insertionSort blockLe raw) raw :=
    List.perm_insertionSort blockLe raw
  have hsorted : List.Pairwise blockLe (List.insertionSort blockLe raw) :=
    List.sorted_insertionSort blockLe raw
  have hdisj : List.Pairwise blockDisj (List.insertionSort blockLe raw) := by
    refine (List.Perm.pairwise_iff ?_ hperm).2 hraw.2
    intro x y h
    exact Or.symm h
  have hmem : ∀ x ∈ List.insertionSort blockLe raw,
      blockBound a.length b.length x ∧ 1 ≤ x.2.2 :=
    fun x hx => hraw.1 x (hperm.mem_iff.1 hx)
  have hchain : List.Chain' blockMono (List.insertionSort blockLe raw) :=
    chain_of_sorted _ hsorted hdisj (fun x hx => (hmem x hx).2)
  have hcol := collapseLoop_spec a.length b.length
    (List.insertionSort blockLe raw) 0 0 0
    (by
      rw [List.chain'_cons']
      refine ⟨?_, hchain⟩
      intro y hy
      exact ⟨Nat.zero_le _, Nat.zero_le _⟩)
    (fun x hx => (hmem x hx).1) (Nat.zero_le _) (Nat.zero_le _)
  constructor
  · rw [List.chain'_append]
    refine ⟨hcol.1, List.chain'_singleton _, ?_⟩
    intro x hx y hy
    simp only [List.head?_cons, Option.mem_def, Option.some.injEq] at hy
    have hxm : x ∈ collapseLoop 0 0 0 (List.insertionSort blockLe raw) := by
      rcases List.mem_getLast?_eq_getLast hx with ⟨hne, hxe⟩
      rw [hxe]
      exact List.getLast_mem hne
    have := hcol.2.1 x hxm
    rw [← hy]
    exact ⟨this.1, this.2⟩
  · exact List.getLast?_concat _

end SequenceMatcher

/-!
## Differ

Embedding of `difflib.Differ.compare` (difflib.py lines 833-1024) and its
helpers, as invoked by `ndiff(fromlines, tolines, linejunk, charjunk)`.
-/

/-- First character of a buffered delta line.  The delta lines produced by
`Differ.compare` are never empty (each carries a two-character tag prefix);
Python's `line[0]` would raise on an empty string, here an unreachable NUL
falls through to the catch-all branch of `_mdiff`. -/
def firstChar (l : Str) : Char := l.headD '\x00'

/-- `Differ._dump(tag, x, lo, hi)`: one `"%s %s" % (tag, line)` per index.
Out-of-range indices (impossible in the calls made by `compare`) fall back
to the empty line. -/
def dump (tag : Char) (x : List Str) (lo hi : Nat) : List Str :=
  (List.range' lo (hi - lo)).map (fun i => tag :: ' ' :: x.getD i [])

/-- `Differ._plain_replace`: dump the shorter block first. -/
def plain_replace (a : List Str) (alo ahi : Nat) (b : List Str)
    (blo bhi : Nat) : List Str :=
  if bhi - blo < ahi - alo then dump '+' b blo bhi ++ dump '-' a alo ahi
  else dump '-' a alo ahi ++ dump '+' b blo bhi

/-- `difflib._keep_original_ws(s, tag_s)`. -/
def _keep_original_ws (s tags : Str) : Str :=
  (s.zip tags).map (fun p => if p.2 = ' ' ∧ pyIsSpace p.1 then p.1 else p.2)

/-- `Differ._qformat(aline, bline, atags, btags)`. -/
def qformat (aline bline atags btags : Str) : List Str :=
  let atagsR := pyRstrip (_keep_original_ws aline atags)
  let btagsR := pyRstrip (_keep_original_ws bline btags)
  [sL "- " ++ aline] ++
  (if atagsR ≠ [] then [sL "? " ++ atagsR ++ sL "\n"] else []) ++
  [sL "+ " ++ bline] ++
  (if btagsR ≠ [] then [sL "? " ++ btagsR ++ sL "\n"] else [])

/-- Intraline tag strings built by `_fancy_replace` from the opcodes of
the character-level `SequenceMatcher` over the synch pair. -/
def fancyTags (charjunk : Option (Char → Bool)) (aelt belt : Str) : Str × Str :=
  (get_opcodes charjunk true aelt belt).foldl
    (fun p op =>
      match op.1 with
      | OpTag.replace => (p.1 ++ List.replicate (op.2.2.1 - op.2.1) '^',
          p.2 ++ List.replicate (op.2.2.2.2 - op.2.2.2.1) '^')
      | OpTag.delete => (p.1 ++ List.replicate (op.2.2.1 - op.2.1) '-', p.2)
      | OpTag.insert => (p.1, p.2 ++ List.replicate (op.2.2.2.2 - op.2.2.2.1) '+')
      | OpTag.equal => (p.1 ++ List.replicate (op.2.2.1 - op.2.1) ' ',
          p.2 ++ List.replicate (op.2.2.2.2 - op.2.2.2.1) ' '))
    ([], [])

/-- Search state of `_fancy_replace`:
`(best_ratio, (best_i, best_j) if any, (eqi, eqj) if any)`. -/
abbrev FancyState := (Nat × Nat) × Option (Nat × Nat) × Option (Nat × Nat)

/-- Inner `for i in range(alo, ahi)` loop of the `_fancy_replace` search for
the best non-identical pair (difflib.py lines 921-940).  Identical lines
record the first `(eqi, eqj)`; others update the best ratio when all three
ratio bounds beat it. -/
def fancySearchInner (charjunk : Option (Char → Bool)) (a b : List Str)
    (j : Nat) : List Nat → FancyState → FancyState
  | [], st => st
  | i :: is, st =>
    match a[i]?, b[j]? with
    | some ai, some bj =>
      if ai = bj then
        fancySearchInner charjunk a b j is
          (st.1, st.2.1, match st.2.2 with
            | none => some (i, j)
            | some e => some e)
      else if ratioLt st.1 (smRealQuickRatio ai bj) &&
          ratioLt st.1 (smQuickRatio ai bj) &&
          ratioLt st.1 (smRatio charjunk true ai bj) then
        fancySearchInner charjunk a b j is
          (smRatio charjunk true ai bj, some (i, j), st.2.2)
      else fancySearchInner charjunk a b j is st
    | _, _ => fancySearchInner charjunk a b j is st

/-- Outer `for j in range(blo, bhi)` loop of the `_fancy_replace` search. -/
def fancySearchOuter (charjunk : Option (Char → Bool)) (a b : List Str)
    (alo ahi : Nat) : List Nat → FancyState → FancyState
  | [], st => st
  | j :: js, st =>
    fancySearchOuter charjunk a b alo ahi js
      (fancySearchInner charjunk a b j (List.range' alo (ahi - alo)) st)

/-- The best-pair search of `_fancy_replace`, started from
`best_ratio = 0.74` and no best/equal pair. -/
def fancySearch (charjunk : Option (Char → Bool)) (a b : List Str)
    (alo ahi blo bhi : Nat) : FancyState :=
  fancySearchOuter charjunk a b alo ahi (List.range' blo (bhi - blo))
    ((37, 50), none, none)

/-- Any pair recorded by the search lies inside the searched rectangle,
and no best pair means the ratio still has its initial value. -/
def fancyStateInv (alo ahi blo bhi : Nat) (st : FancyState) : Prop :=
  (st.2.1 = none → st.1 = (37, 50)) ∧
  (∀ i j, st.2.1 = some (i, j) → alo ≤ i ∧ i < ahi ∧ blo ≤ j ∧ j < bhi) ∧
  (∀ i j, st.2.2 = some (i, j) → alo ≤ i ∧ i < ahi ∧ blo ≤ j ∧ j < bhi)

theorem fancySearchInner_inv (charjunk : Option (Char → Bool)) (a b : List Str)
    (alo ahi blo bhi j : Nat) (hj : blo ≤ j ∧ j < bhi) :
    ∀ (is : List Nat) (st : FancyState),
    (∀ i ∈ is, alo ≤ i ∧ i < ahi) → fancyStateInv alo ahi blo bhi st →
    fancyStateInv alo ahi blo bhi (fancySearchInner charjunk a b j is st) := by
  intro is
  induction is with
  | nil => intro st _ hst; simpa [fancySearchInner] using hst
  | cons i is ih =>
    intro st his hst
    have hi := his i (List.mem_cons_self i is)
    have his' : ∀ x ∈ is, alo ≤ x ∧ x < ahi :=
      fun x hx => his x (List.mem_cons_of_mem i hx)
    rw [fancySearchInner]
    rcases ha : a[i]? with _ | ai <;> rcases hb : b[j]? with _ | bj <;>
      try exact ih st his' hst
    dsimp only
    by_cases he : ai = bj
    · rw [if_pos he]
      refine ih _ his' ⟨hst.1, hst.2.1, ?_⟩
      intro i' j' h
      dsimp only at h
      rcases hee : st.2.2 with _ | e
      · rw [hee] at h
        simp only [Option.some.injEq, Prod.mk.injEq] at h
        rcases h with ⟨h1, h2⟩
        exact h1 ▸ h2 ▸ ⟨hi.1, hi.2, hj.1, hj.2⟩
      · rw [hee] at h
        exact hst.2.2 i' j' (hee.trans h)
    · rw [if_neg he]
      by_cases hr : (ratioLt st.1 (smRealQuickRatio ai bj) &&
          ratioLt st.1 (smQuickRatio ai bj) &&
          ratioLt st.1 (smRatio charjunk true ai bj)) = true
      · rw [if_pos hr]
        refine ih _ his' ⟨?_, ?_, hst.2.2⟩
        · intro h
          exact absurd h (by simp)
        · intro i' j' h
          simp only [Option.some.injEq, Prod.mk.injEq] at h
          rcases h with ⟨h1, h2⟩
          exact h1 ▸ h2 ▸ ⟨hi.1, hi.2, hj.1, hj.2⟩
      · rw [if_neg hr]
        exact ih st his' hst

theorem fancySearchOuter_inv (charjunk : Option (Char → Bool)) (a b : List Str)
    (alo ahi blo bhi : Nat) :
    ∀ (js : List Nat) (st : FancyState),
    (∀ j ∈ js, blo ≤ j ∧ j < bhi) → fancyStateInv alo ahi blo bhi st →
    fancyStateInv alo ahi blo bhi (fancySearchOuter charjunk a b alo ahi js st) := by
  intro js
  induction js with
  | nil => intro st _ hst; simpa [fancySearchOuter] using hst
  | cons j js ih =>
    intro st hjs hst
    rw [fancySearchOuter]
    exact ih _ (fun x hx => hjs x (List.mem_cons_of_mem j hx))
      (fancySearchInner_inv charjunk a b alo ahi blo bhi j
        (hjs j (List.mem_cons_self j js))
        (List.range' alo (ahi - alo)) st
        (fun x hx => by
          rcases List.mem_range'_1.1 hx with ⟨h1, h2⟩
          omega) hst)

theorem fancySearch_inv (charjunk : Option (Char → Bool)) (a b : List Str)
    (alo ahi blo bhi : Nat) :
    fancyStateInv alo ahi blo bhi (fancySearch charjunk a b alo ahi blo bhi) := by
  refine fancySearchOuter_inv charjunk a b alo ahi blo bhi _ _ ?_ ?_
  · intro x hx
    rcases List.mem_range'_1.1 hx with ⟨h1, h2⟩
    omega
  · exact ⟨fun _ => rfl, fun i j h => by simp at h, fun i j h => by simp at h⟩

/-- The mutual recursion `Differ._fancy_replace`/`Differ._fancy_helper`
(difflib.py lines 893-998) as one countdown-indexed function; the `Bool`
selects the helper (`true`) or the replace (`false`) body.  In the replace
body, `cutoff = 0.75`; below it an identical pair (if any) is the synch
point, above it the best close pair is (the `none` fallback in the second
match is unreachable: a ratio above the cutoff forces an update, see
`fancySearch_inv`; Python would raise `NameError` there).  Every caller
passes at least the combined range size `(ahi - alo) + (bhi - blo)`, which
the recursion strictly shrinks before re-entering the replace body, so the
zero arm is dead code. -/
def fancyGo (charjunk : Option (Char → Bool)) (a b : List Str) :
    Nat → Bool → Nat → Nat → Nat → Nat → List Str
  | 0, _, _, _, _, _ => []
  | fuel + 1, true, alo, ahi, blo, bhi =>
    if alo < ahi then
      if blo < bhi then fancyGo charjunk a b fuel false alo ahi blo bhi
      else dump '-' a alo ahi
    else if blo < bhi then dump '+' b blo bhi
    else []
  | fuel + 1, false, alo, ahi, blo, bhi =>
    let st := fancySearch charjunk a b alo ahi blo bhi
    if ratioLt st.1 (3, 4) then
      match st.2.2 with
      | none => plain_replace a alo ahi b blo bhi
      | some e =>
        fancyGo charjunk a b fuel true alo e.1 blo e.2 ++
        [sL "  " ++ a.getD e.1 []] ++
        fancyGo charjunk a b fuel true (e.1 + 1) ahi (e.2 + 1) bhi
    else
      match st.2.1 with
      | some p =>
        fancyGo charjunk a b fuel true alo p.1 blo p.2 ++
        qformat (a.getD p.1 []) (b.getD p.2 [])
          (fancyTags charjunk (a.getD p.1 []) (b.getD p.2 [])).1
          (fancyTags charjunk (a.getD p.1 []) (b.getD p.2 [])).2 ++
        fancyGo charjunk a b fuel true (p.1 + 1) ahi (p.2 + 1) bhi
      | none => []

/-- `Differ._fancy_replace(a, alo, ahi, b, blo, bhi)`. -/
def _fancy_replace (charjunk : Option (Char → Bool)) (a : List Str)
    (alo ahi : Nat) (b : List Str) (blo bhi : Nat) (fuel : Nat) : List Str :=
  fancyGo charjunk a b fuel false alo ahi blo bhi

/-- `Differ._fancy_helper`. -/
def _fancy_helper (charjunk : Option (Char → Bool)) (a : List Str)
    (alo ahi : Nat) (b : List Str) (blo bhi : Nat) (fuel : Nat) : List Str :=
  fancyGo charjunk a b fuel true alo ahi blo bhi

/-- One opcode's lines in `Differ.compare`: the body of its dispatch
`for tag, alo, ahi, blo, bhi in cruncher.get_opcodes()`. -/
def differOp (charjunk : Option (Char → Bool)) (a b : List Str)
    (op : OpTag × Nat × Nat × Nat × Nat) : List Str :=
  match op.1 with
  | OpTag.replace => _fancy_replace charjunk a op.2.1 op.2.2.1 b op.2.2.2.1
      op.2.2.2.2 ((op.2.2.1 - op.2.1) + (op.2.2.2.2 - op.2.2.2.1) + 1)
  | OpTag.delete => dump '-' a op.2.1 op.2.2.1
  | OpTag.insert => dump '+' b op.2.2.2.1 op.2.2.2.2
  | OpTag.equal => dump ' ' a op.2.1 op.2.2.1

/-- `Differ.compare(a, b)` (difflib.py lines 833-872), dispatching on the
opcodes of the line-level `SequenceMatcher(linejunk, a, b)`. -/
def differCompare (linejunk : Option (Str → Bool))
    (charjunk : Option (Char → Bool)) (a b : List Str) : List Str :=
  (get_opcodes linejunk true a b).flatMap (differOp charjunk a b)

/-- `difflib.ndiff(a, b, linejunk, charjunk)`. -/
def ndiff (a b : List Str) (linejunk : Option (Str → Bool))
    (charjunk : Option (Char → Bool)) : List Str :=
  differCompare linejunk charjunk a b

/-!
## The delta grammar

`lineIterator` below keys on the first character of each delta line.
`Differ.compare` only emits lines tagged `' '`, `'-'`, `'+'` and, inside a
`_qformat` quadruple, `'?'`; the `'?'` lines appear only directly after
the `'-'` or `'+'` line they annotate.  `WfD` captures the exact shapes,
`dF`/`dT` count the from-side and to-side lines of a delta.
-/

/-- A delta line that carries (or shares) a line of the from-file. -/
def fromTagChar (c : Char) : Bool := c == '-' || c == ' '

/-- A delta line that carries (or shares) a line of the to-file. -/
def toTagChar (c : Char) : Bool := c == '+' || c == ' '

/-- Number of delta lines holding a from-file line. -/
def dF (d : List Str) : Nat := d.countP (fun l => fromTagChar (firstChar l))

/-- Number of delta lines holding a to-file line. -/
def dT (d : List Str) : Nat := d.countP (fun l => toTagChar (firstChar l))

/-- Well-formed deltas: concatenations of single `' '`, `'-'`, `'+'` lines
and the three `_qformat` shapes that contain `'?'` marker lines. -/
inductive WfD : List Str → Prop
  | nil : WfD []
  | space {l : Str} {ts : List Str} (h : firstChar l = ' ') (ht : WfD ts) :
      WfD (l :: ts)
  | minus {l : Str} {ts : List Str} (h : firstChar l = '-') (ht : WfD ts) :
      WfD (l :: ts)
  | plus {l : Str} {ts : List Str} (h : firstChar l = '+') (ht : WfD ts) :
      WfD (l :: ts)
  | q1 {l0 l1 l2 l3 : Str} {ts : List Str} (h0 : firstChar l0 = '-')
      (h1 : firstChar l1 = '?') (h2 : firstChar l2 = '+')
      (h3 : firstChar l3 = '?') (ht : WfD ts) :
      WfD (l0 :: l1 :: l2 :: l3 :: ts)
  | q2 {l0 l1 l2 : Str} {ts : List Str} (h0 : firstChar l0 = '-')
      (h1 : firstChar l1 = '?') (h2 : firstChar l2 = '+') (ht : WfD ts) :
      WfD (l0 :: l1 :: l2 :: ts)
  | q3 {l0 l1 l2 : Str} {ts : List Str} (h0 : firstChar l0 = '-')
      (h1 : firstChar l1 = '+') (h2 : firstChar l2 = '?') (ht : WfD ts) :
      WfD (l0 :: l1 :: l2 :: ts)

/-- A well-formed delta never starts with a `'?'` line. -/
theorem WfD_head_ne {l : Str} {ts : List Str} (h : WfD (l :: ts)) :
    firstChar l ≠ '?' := by
  cases h with
  | space h _ => rw [h]; decide
  | minus h _ => rw [h]; decide
  | plus h _ => rw [h]; decide
  | q1 h0 _ _ _ _ => rw [h0]; decide
  | q2 h0 _ _ _ => rw [h0]; decide
  | q3 h0 _ _ _ => rw [h0]; decide

theorem WfD_append {xs ys : List Str} (hx : WfD xs) (hy : WfD ys) :
    WfD (xs ++ ys) := by
  induction hx with
  | nil => exact hy
  | space h _ ih => exact WfD.space h ih
  | minus h _ ih => exact WfD.minus h ih
  | plus h _ ih => exact WfD.plus h ih
  | q1 h0 h1 h2 h3 _ ih => exact WfD.q1 h0 h1 h2 h3 ih
  | q2 h0 h1 h2 _ ih => exact WfD.q2 h0 h1 h2 ih
  | q3 h0 h1 h2 _ ih => exact WfD.q3 h0 h1 h2 ih

theorem WfD_of_all : ∀ L : List Str,
    (∀ l ∈ L, firstChar l = ' ' ∨ firstChar l = '-' ∨ firstChar l = '+') →
    WfD L := by
  intro L
  induction L with
  | nil => intro _; exact WfD.nil
  | cons l ts ih =>
    intro h
    have hl := h l (List.mem_cons_self l ts)
    have ht := ih (fun x hx => h x (List.mem_cons_of_mem l hx))
    rcases hl with h1 | h1 | h1
    · exact WfD.space h1 ht
    · exact WfD.minus h1 ht
    · exact WfD.plus h1 ht

theorem dump_firstChar (tag : Char) (x : List Str) (lo hi : Nat) :
    ∀ l ∈ dump tag x lo hi, firstChar l = tag := by
  intro l hl
  simp only [dump, List.mem_map] at hl
  rcases hl with ⟨i, _, rfl⟩
  rfl

theorem countP_dump (p : Char → Bool) (tag : Char) (x : List Str)
    (lo hi : Nat) :
    (dump tag x lo hi).countP (fun l => p (firstChar l)) =
      if p tag then hi - lo else 0 := by
  unfold dump
  rw [List.countP_map]
  by_cases hp : p tag = true
  · rw [if_pos hp]
    rw [List.countP_eq_length.2, List.length_range']
    intro i _
    simpa using hp
  · rw [if_neg hp]
    rw [List.countP_eq_zero.2]
    intro i _
    simpa using hp

theorem WfD_dump (tag : Char) (x : List Str) (lo hi : Nat)
    (h : tag = ' ' ∨ tag = '-' ∨ tag = '+') : WfD (dump tag x lo hi) := by
  refine WfD_of_all _ (fun l hl => ?_)
  rw [dump_firstChar tag x lo hi l hl]
  exact h

theorem dF_dump_minus (x : List Str) (lo hi : Nat) :
    dF (dump '-' x lo hi) = hi - lo := by
  unfold dF
  rw [countP_dump, if_pos (by decide)]

theorem dT_dump_minus (x : List Str) (lo hi : Nat) :
    dT (dump '-' x lo hi) = 0 := by
  unfold dT
  rw [countP_dump, if_neg (by decide)]

theorem dF_dump_plus (x : List Str) (lo hi : Nat) :
    dF (dump '+' x lo hi) = 0 := by
  unfold dF
  rw [countP_dump, if_neg (by decide)]

theorem dT_dump_plus (x : List Str) (lo hi : Nat) :
    dT (dump '+' x lo hi) = hi - lo := by
  unfold dT
  rw [countP_dump, if_pos (by decide)]

theorem dF_dump_space (x : List Str) (lo hi : Nat) :
    dF (dump ' ' x lo hi) = hi - lo := by
  unfold dF
  rw [countP_dump, if_pos (by decide)]

theorem dT_dump_space (x : List Str) (lo hi : Nat) :
    dT (dump ' ' x lo hi) = hi - lo := by
  unfold dT
  rw [countP_dump, if_pos (by decide)]

theorem qformat_counts (aline bline atags btags : Str) :
    dF (qformat aline bline atags btags) = 1 ∧
    dT (qformat aline bline atags btags) = 1 := by
  have e1 : fromTagChar (firstChar (sL "- " ++ aline)) = true := rfl
  have e2 : fromTagChar (firstChar (sL "? " ++
      pyRstrip (_keep_original_ws aline atags) ++ sL "\n")) = false := rfl
  have e3 : fromTagChar (firstChar (sL "+ " ++ bline)) = false := rfl
  have e4 : fromTagChar (firstChar (sL "? " ++
      pyRstrip (_keep_original_ws bline btags) ++ sL "\n")) = false := rfl
  have f1 : toTagChar (firstChar (sL "- " ++ aline)) = false := rfl
  have f2 : toTagChar (firstChar (sL "? " ++
      pyRstrip (_keep_original_ws aline atags) ++ sL "\n")) = false := rfl
  have f3 : toTagChar (firstChar (sL "+ " ++ bline)) = true := rfl
  have f4 : toTagChar (firstChar (sL "? " ++
      pyRstrip (_keep_original_ws bline btags) ++ sL "\n")) = false := rfl
  unfold qformat dF dT
  by_cases h1 : pyRstrip (_keep_original_ws aline atags) ≠ [] <;>
    by_cases h2 : pyRstrip (_keep_original_ws bline btags) ≠ [] <;>
    simp only [if_pos h1, if_neg h1, if_pos h2, if_neg h2, List.countP_append,
      List.countP_cons, List.countP_nil, e1, e2, e3, e4, f1, f2, f3, f4] <;>
    simp

theorem WfD_qformat_append (aline bline atags btags : Str) {ts : List Str}
    (hts : WfD ts) : WfD (qformat aline bline atags btags ++ ts) := by
  have e1 : firstChar (sL "- " ++ aline) = '-' := rfl
  have e2 : firstChar (sL "? " ++ pyRstrip (_keep_original_ws aline atags) ++
      sL "\n") = '?' := rfl
  have e3 : firstChar (sL "+ " ++ bline) = '+' := rfl
  have e4 : firstChar (sL "? " ++ pyRstrip (_keep_original_ws bline btags) ++
      sL "\n") = '?' := rfl
  unfold qformat
  by_cases h1 : pyRstrip (_keep_original_ws aline atags) ≠ [] <;>
    by_cases h2 : pyRstrip (_keep_original_ws bline btags) ≠ [] <;>
    simp only [if_pos h1, if_neg h1, if_pos h2, if_neg h2, List.cons_append,
      List.nil_append, List.append_assoc, List.singleton_append]
  · exact WfD.q1 e1 e2 e3 e4 hts
  · exact WfD.q2 e1 e2 e3 hts
  · exact WfD.q3 e1 e3 e4 hts
  · exact WfD.minus e1 (WfD.plus e3 hts)

/-- Line counts and well-formedness of the `_fancy_replace`/`_fancy_helper`
output: a call on the ranges `[alo, ahi) × [blo, bhi)` contributes exactly
`ahi - alo` from-side lines and `bhi - blo` to-side lines, and its delta is
well formed.  The countdown hypothesis matches what every caller passes. -/
theorem fancyGo_spec (charjunk : Option (Char → Bool)) (a b : List Str) :
    ∀ (fuel : Nat) (mode : Bool) (alo ahi blo bhi : Nat),
    (ahi - alo) + (bhi - blo) + (if mode then 1 else 0) ≤ fuel →
    dF (fancyGo charjunk a b fuel mode alo ahi blo bhi) = ahi - alo ∧
    dT (fancyGo charjunk a b fuel mode alo ahi blo bhi) = bhi - blo ∧
    WfD (fancyGo charjunk a b fuel mode alo ahi blo bhi) := by
  intro fuel
  induction fuel with
  | zero =>
    intro mode alo ahi blo bhi hm
    cases mode
    · have hm' : (ahi - alo) + (bhi - blo) + 0 ≤ 0 := hm
      have h1 : ahi - alo = 0 := by omega
      have h2 : bhi - blo = 0 := by omega
      rw [h1, h2]
      exact ⟨rfl, rfl, WfD.nil⟩
    · have hm' : (ahi - alo) + (bhi - blo) + 1 ≤ 0 := hm
      omega
  | succ fuel ih =>
    intro mode alo ahi blo bhi hm
    cases mode
    · -- replace body
      rw [fancyGo]
      have hm' : (ahi - alo) + (bhi - blo) + 0 ≤ fuel + 1 := hm
      have hinv := fancySearch_inv charjunk a b alo ahi blo bhi
      by_cases hrt :
          ratioLt (fancySearch charjunk a b alo ahi blo bhi).1 (3, 4) = true
      · rw [if_pos hrt]
        rcases he : (fancySearch charjunk a b alo ahi blo bhi).2.2 with _ | e
        · dsimp only
          unfold plain_replace
          split
          · refine ⟨?_, ?_, ?_⟩
            · unfold dF at *
              rw [List.countP_append]
              have g1 := dF_dump_plus b blo bhi
              have g2 := dF_dump_minus a alo ahi
              unfold dF at g1 g2
              omega
            · unfold dT at *
              rw [List.countP_append]
              have g1 := dT_dump_plus b blo bhi
              have g2 := dT_dump_minus a alo ahi
              unfold dT at g1 g2
              omega
            · exact WfD_append (WfD_dump _ _ _ _ (by simp))
                (WfD_dump _ _ _ _ (by simp))
          · refine ⟨?_, ?_, ?_⟩
            · unfold dF at *
              rw [List.countP_append]
              have g1 := dF_dump_plus b blo bhi
              have g2 := dF_dump_minus a alo ahi
              unfold dF at g1 g2
              omega
            · unfold dT at *
              rw [List.countP_append]
              have g1 := dT_dump_plus b blo bhi
              have g2 := dT_dump_minus a alo ahi
              unfold dT at g1 g2
              omega
            · exact WfD_append (WfD_dump _ _ _ _ (by simp))
                (WfD_dump _ _ _ _ (by simp))
        · dsimp only
          have hb := hinv.2.2 e.1 e.2 (by rw [he])
          have ih1 := ih true alo e.1 blo e.2 (by
            show (e.1 - alo) + (e.2 - blo) + 1 ≤ fuel
            omega)
          have ih2 := ih true (e.1 + 1) ahi (e.2 + 1) bhi (by
            show (ahi - (e.1 + 1)) + (bhi - (e.2 + 1)) + 1 ≤ fuel
            omega)
          have hmid : dF [sL "  " ++ a.getD e.1 []] = 1 ∧
              dT [sL "  " ++ a.getD e.1 []] = 1 ∧
              firstChar (sL "  " ++ a.getD e.1 []) = ' ' :=
            ⟨rfl, rfl, rfl⟩
          refine ⟨?_, ?_, ?_⟩
          · unfold dF at *
            rw [List.countP_append, List.countP_append]
            omega
          · unfold dT at *
            rw [List.countP_append, List.countP_append]
            omega
          · rw [List.append_assoc]
            exact WfD_append ih1.2.2 (WfD.space hmid.2.2 ih2.2.2)
      · rw [if_neg hrt]
        rcases hb : (fancySearch charjunk a b alo ahi blo bhi).2.1 with _ | p
        · exfalso
          have h0 := hinv.1 hb
          rw [h0] at hrt
          exact hrt (by decide)
        · dsimp only
          have hbp := hinv.2.1 p.1 p.2 (by rw [hb])
          have ih1 := ih true alo p.1 blo p.2 (by
            show (p.1 - alo) + (p.2 - blo) + 1 ≤ fuel
            omega)
          have ih2 := ih true (p.1 + 1) ahi (p.2 + 1) bhi (by
            show (ahi - (p.1 + 1)) + (bhi - (p.2 + 1)) + 1 ≤ fuel
            omega)
          have hq := qformat_counts (a.getD p.1 []) (b.getD p.2 [])
            (fancyTags charjunk (a.getD p.1 []) (b.getD p.2 [])).1
            (fancyTags charjunk (a.getD p.1 []) (b.getD p.2 [])).2
          refine ⟨?_, ?_, ?_⟩
          · unfold dF at *
            rw [List.countP_append, List.countP_append]
            omega
          · unfold dT at *
            rw [List.countP_append, List.countP_append]
            omega
          · rw [List.append_assoc]
            exact WfD_append ih1.2.2 (WfD_qformat_append _ _ _ _ ih2.2.2)
    · -- helper body
      rw [fancyGo]
      have hm' : (ahi - alo) + (bhi - blo) + 1 ≤ fuel + 1 := hm
      by_cases ha : alo < ahi
      · rw [if_pos ha]
        by_cases hbb : blo < bhi
        · rw [if_pos hbb]
          exact ih false alo ahi blo bhi (by
            show (ahi - alo) + (bhi - blo) + 0 ≤ fuel
            omega)
        · rw [if_neg hbb]
          refine ⟨dF_dump_minus a alo ahi, ?_, WfD_dump _ _ _ _ (by simp)⟩
          rw [dT_dump_minus]
          omega
      · rw [if_neg ha]
        by_cases hbb : blo < bhi
        · rw [if_pos hbb]
          refine ⟨?_, dT_dump_plus b blo bhi, WfD_dump _ _ _ _ (by simp)⟩
          rw [dF_dump_plus]
          omega
        · rw [if_neg hbb]
          refine ⟨?_, ?_, WfD.nil⟩
          · show dF [] = ahi - alo
            have : ahi - alo = 0 := by omega
            rw [this]
            rfl
          · show dT [] = bhi - blo
            have : bhi - blo = 0 := by omega
            rw [this]
            rfl

/-- Walking a staircase of matching blocks: the opcode cursor loop tiles
`[i, |a|) × [j, |b|)` exactly, so the per-opcode line counts of
`Differ.compare` add up to the input lengths, and the concatenated delta
is well formed. -/
theorem opcodeWalk_spec (charjunk : Option (Char → Bool)) (a b : List Str) :
    ∀ (blocks : List Block) (i j : Nat),
    List.Chain' blockMono blocks →
    blocks.getLast? = some (a.length, b.length, 0) →
    (∀ x ∈ blocks.head?, i ≤ x.1 ∧ j ≤ x.2.1) →
    dF ((getOpcodesLoop i j blocks).flatMap (differOp charjunk a b)) =
      a.length - i ∧
    dT ((getOpcodesLoop i j blocks).flatMap (differOp charjunk a b)) =
      b.length - j ∧
    i ≤ a.length ∧ j ≤ b.length ∧
    WfD ((getOpcodesLoop i j blocks).flatMap (differOp charjunk a b)) := by
  intro blocks
  induction blocks with
  | nil => intro i j _ hlast _; simp at hlast
  | cons hd rest ih =>
    intro i j hchain hlast hhead
    rcases hd with ⟨ai, bj, size⟩
    have hij := hhead (ai, bj, size) (by simp)
    have hia : i ≤ ai := by have := hij.1; dsimp only at this; exact this
    have hjb : j ≤ bj := by have := hij.2; dsimp only at this; exact this
    have hrec : dF ((getOpcodesLoop (ai + size) (bj + size) rest).flatMap
          (differOp charjunk a b)) = a.length - (ai + size) ∧
        dT ((getOpcodesLoop (ai + size) (bj + size) rest).flatMap
          (differOp charjunk a b)) = b.length - (bj + size) ∧
        ai + size ≤ a.length ∧ bj + size ≤ b.length ∧
        WfD ((getOpcodesLoop (ai + size) (bj + size) rest).flatMap
          (differOp charjunk a b)) := by
      match rest, hlast with
      | [], hlast =>
        simp only [List.getLast?_singleton, Option.some.injEq,
          Prod.mk.injEq] at hlast
        obtain ⟨h1, h2, h3⟩ := hlast
        subst h1; subst h2; subst h3
        refine ⟨?_, ?_, by omega, by omega, ?_⟩
        · simp only [getOpcodesLoop, List.flatMap_nil]
          show (0 : Nat) = a.length - (a.length + 0)
          omega
        · simp only [getOpcodesLoop, List.flatMap_nil]
          show (0 : Nat) = b.length - (b.length + 0)
          omega
        · simp only [getOpcodesLoop, List.flatMap_nil]
          exact WfD.nil
      | c :: rest', hlast =>
        have hch := List.chain'_cons.1 hchain
        have hmono : ai + size ≤ c.1 ∧ bj + size ≤ c.2.1 := by
          have h1 := hch.1.1
          have h2 := hch.1.2
          dsimp only at h1 h2
          exact ⟨h1, h2⟩
        refine ih (ai + size) (bj + size) hch.2 ?_ ?_
        · rw [← hlast, List.getLast?_cons_cons]
        · intro x hx
          simp only [List.head?_cons, Option.mem_def, Option.some.injEq] at hx
          rw [← hx]
          exact hmono
    rw [getOpcodesLoop]
    have hfan := fancyGo_spec charjunk a b
      ((ai - i) + (bj - j) + 1) false i ai j bj (by
        show (ai - i) + (bj - j) + 0 ≤ (ai - i) + (bj - j) + 1
        omega)
    have hgroup1 :
        dF ((if i < ai ∧ j < bj then [(OpTag.replace, i, ai, j, bj)]
          else if i < ai then [(OpTag.delete, i, ai, j, bj)]
          else if j < bj then [(OpTag.insert, i, ai, j, bj)]
          else []).flatMap (differOp charjunk a b)) = ai - i ∧
        dT ((if i < ai ∧ j < bj then [(OpTag.replace, i, ai, j, bj)]
          else if i < ai then [(OpTag.delete, i, ai, j, bj)]
          else if j < bj then [(OpTag.insert, i, ai, j, bj)]
          else []).flatMap (differOp charjunk a b)) = bj - j ∧
        WfD ((if i < ai ∧ j < bj then [(OpTag.replace, i, ai, j, bj)]
          else if i < ai then [(OpTag.delete, i, ai, j, bj)]
          else if j < bj then [(OpTag.insert, i, ai, j, bj)]
          else []).flatMap (differOp charjunk a b)) := by
      by_cases h1 : i < ai ∧ j < bj
      · rw [if_pos h1]
        simp only [List.flatMap_cons, List.flatMap_nil, List.append_nil]
        show dF (_fancy_replace charjunk a i ai b j bj
              ((ai - i) + (bj - j) + 1)) = ai - i ∧
          dT (_fancy_replace charjunk a i ai b j bj
              ((ai - i) + (bj - j) + 1)) = bj - j ∧
          WfD (_fancy_replace charjunk a i ai b j bj
              ((ai - i) + (bj - j) + 1))
        unfold _fancy_replace
        exact hfan
      · rw [if_neg h1]
        by_cases h2 : i < ai
        · rw [if_pos h2]
          simp only [List.flatMap_cons, List.flatMap_nil, List.append_nil]
          show dF (dump '-' a i ai) = ai - i ∧
            dT (dump '-' a i ai) = bj - j ∧ WfD (dump '-' a i ai)
          refine ⟨dF_dump_minus a i ai, ?_, WfD_dump _ _ _ _ (by simp)⟩
          rw [dT_dump_minus]
          omega
        · rw [if_neg h2]
          by_cases h3 : j < bj
          · rw [if_pos h3]
            simp only [List.flatMap_cons, List.flatMap_nil, List.append_nil]
            show dF (dump '+' b j bj) = ai - i ∧
              dT (dump '+' b j bj) = bj - j ∧ WfD (dump '+' b j bj)
            refine ⟨?_, dT_dump_plus b j bj, WfD_dump _ _ _ _ (by simp)⟩
            rw [dF_dump_plus]
            omega
          · rw [if_neg h3]
            simp only [List.flatMap_nil]
            refine ⟨?_, ?_, WfD.nil⟩
            · show dF [] = ai - i
              have : ai - i = 0 := by omega
              rw [this]; rfl
            · show dT [] = bj - j
              have : bj - j = 0 := by omega
              rw [this]; rfl
    have hgroup2 :
        dF ((if size ≠ 0 then [(OpTag.equal, ai, ai + size, bj, bj + size)]
          else []).flatMap (differOp charjunk a b)) = size ∧
        dT ((if size ≠ 0 then [(OpTag.equal, ai, ai + size, bj, bj + size)]
          else []).flatMap (differOp charjunk a b)) = size ∧
        WfD ((if size ≠ 0 then [(OpTag.equal, ai, ai + size, bj, bj + size)]
          else []).flatMap (differOp charjunk a b)) := by
      by_cases hs : size ≠ 0
      · rw [if_pos hs]
        simp only [List.flatMap_cons, List.flatMap_nil, List.append_nil]
        show dF (dump ' ' a ai (ai + size)) = size ∧
          dT (dump ' ' a ai (ai + size)) = size ∧
          WfD (dump ' ' a ai (ai + size))
        refine ⟨?_, ?_, WfD_dump _ _ _ _ (by simp)⟩
        · rw [dF_dump_space]; omega
        · rw [dT_dump_space]; omega
      · rw [if_neg hs]
        simp only [List.flatMap_nil]
        have hsz : size = 0 := by omega
        subst hsz
        exact ⟨rfl, rfl, WfD.nil⟩
    rw [List.flatMap_append, List.flatMap_append]
    unfold dF dT at *
    rw [List.countP_append, List.countP_append, List.countP_append,
      List.countP_append]
    refine ⟨by omega, by omega, by omega, by omega, ?_⟩
    exact WfD_append (WfD_append hgroup1.2.2 hgroup2.2.2) hrec.2.2.2.2

/-- `Differ.compare` covers both inputs exactly: `a.length` from-side
lines, `b.length` to-side lines, and a well-formed delta. -/
theorem differCompare_spec (linejunk : Option (Str → Bool))
    (charjunk : Option (Char → Bool)) (a b : List Str) :
    dF (differCompare linejunk charjunk a b) = a.length ∧
    dT (differCompare linejunk charjunk a b) = b.length ∧
    WfD (differCompare linejunk charjunk a b) := by
  have hc := get_matching_blocks_chain linejunk true a b
  have hw := opcodeWalk_spec charjunk a b
    (get_matching_blocks linejunk true a b) 0 0 hc.1 hc.2
    (fun x _ => ⟨Nat.zero_le _, Nat.zero_le _⟩)
  exact ⟨by have := hw.1; simpa using this,
    by have := hw.2.1; simpa using this, hw.2.2.2.2⟩

/-!
## _mdiff

Embedding of `difflib._mdiff` (difflib.py lines 1340-1607): the marked-up
side-by-side generator consumed by `CodeDiff.getDiffDetails`.
-/

/-- One side of an `_mdiff` pair: `(line number, marked-up text)`, the
number being `''` (here `none`) for padding blanks. -/
abbrev LineTup := Option Nat × Str

/-- A yield of `_line_iterator`: optional from-side, optional to-side,
change flag. -/
abbrev Triple := Option LineTup × Option LineTup × Bool

/-- A yield of `_line_pair_iterator`: both sides always present. -/
abbrev PairT := LineTup × LineTup × Bool

/-- An element of the `_mdiff` output: `none` models the context separator
`(None, None, None)`. -/
abbrev MdiffEntry := Option PairT

theorem takeWhile_length_le {γ : Type} (p : γ → Bool) (l : List γ) :
    (l.takeWhile p).length ≤ l.length := by
  induction l with
  | nil => simp
  | cons c cs ih =>
    rw [List.takeWhile_cons]
    split
    · simp only [List.length_cons]; omega
    · simp

/-- Maximal runs matched by the regular expression `(\++|\-+|\^+)` over a
`'?'` marker line, with their absolute spans, as collected by
`record_sub_info` inside `_make_line`. -/
def changeRuns : Nat → Nat → Str → List (Char × Nat × Nat)
  | 0, _, _ => []
  | _ + 1, _, [] => []
  | fuel + 1, i, c :: cs =>
    if c = '+' ∨ c = '-' ∨ c = '^' then
      let t := cs.takeWhile (fun d => d = c)
      (c, i, i + 1 + t.length) ::
        changeRuns fuel (i + 1 + t.length) (cs.drop t.length)
    else changeRuns fuel (i + 1) cs

/-- Marker insertion of the `'?'` case of `_make_line`: each recorded span
is wrapped as `text[:begin] + '\0' + key + text[begin:end] + '\1' +
text[end:]`, processing the spans in reverse order (`foldr` applies the
first run last, exactly as Python's `reversed(sub_info)` loop).  The run
scanner consumes at least one character per step, so its countdown
`markers.length + 1` cannot run out. -/
def makeLineQ (text markers : Str) : Str :=
  (List.foldr
    (fun (r : Char × Nat × Nat) t =>
      t.take r.2.1 ++ '\x00' :: r.1 ::
        ((t.drop r.2.1).take (r.2.2 - r.2.1)) ++ '\x01' :: t.drop r.2.2)
    text (changeRuns (markers.length + 1) 0 markers)).drop 2

/-- The `'+'`/`'-'` case of `_make_line`: strip the two-character prefix,
substitute a single space for an empty line, and wrap in
`'\0' + format_key + text + '\1'`. -/
def makeLinePM (key : Char) (l : Str) : Str :=
  let text := l.drop 2
  '\x00' :: key :: (if text = [] then [' '] else text) ++ ['\x01']

/-- The blank padding lines `('','\n')` pumped out by `_line_iterator`
(negative pending on the to side, positive on the from side). -/
def flushEntries (t : Int) : List Triple :=
  if t < 0 then
    List.replicate (-t).toNat (none, some ((none : Option Nat), sL "\n"), true)
  else
    List.replicate t.toNat (some ((none : Option Nat), sL "\n"), none, true)

/-- `_mdiff._line_iterator` (difflib.py lines 1438-1524) as a function of
the remaining delta lines, the pending blank count and the two line-number
counters of `_make_line`.  Each branch mirrors one `elif` of the source,
keyed on the first characters `s` of the four-line lookahead ('X' padding
when the delta is exhausted).  Every step consumes at least one delta
line, so the structural countdown (passed as `length + 1` by `mdiff`)
cannot run out.  The final catch-all is unreachable for
deltas produced by `Differ.compare` (a `'?'` line never heads the buffer);
Python loops forever there. -/
def lineIterator : Nat → List Str → Int → Nat → Nat → List Triple
  | 0, _, _, _, _ => []
  | _ + 1, [], p, _, _ => flushEntries p
  | fuel + 1, l0 :: rest, p, nf, nt =>
    let c0 := firstChar l0
    let c1 := ((rest[0]?).map firstChar).getD 'X'
    let c2 := ((rest[1]?).map firstChar).getD 'X'
    let c3 := ((rest[2]?).map firstChar).getD 'X'
    if c0 = 'X' then flushEntries p
    else if c0 = '-' ∧ c1 = '?' ∧ c2 = '+' ∧ c3 = '?' then
      (some (some (nf + 1), makeLineQ l0 (rest.getD 0 [])),
       some (some (nt + 1), makeLineQ (rest.getD 1 []) (rest.getD 2 [])), true) ::
      lineIterator fuel (rest.drop 3) p (nf + 1) (nt + 1)
    else if c0 = '-' ∧ c1 = '-' ∧ c2 = '+' ∧ c3 = '+' then
      (some (some (nf + 1), makeLinePM '-' l0), none, true) ::
      lineIterator fuel rest (p - 1) (nf + 1) nt
    else if (c0 = '-' ∧ c1 = '-' ∧ c2 = '?' ∧ c3 = '+') ∨
        (c0 = '-' ∧ c1 = '-' ∧ c2 = '+') ∨ (c0 = '-' ∧ c1 = ' ') then
      flushEntries (p - 1) ++
      (some (some (nf + 1), makeLinePM '-' l0), none, true) ::
      lineIterator fuel rest 0 (nf + 1) nt
    else if c0 = '-' ∧ c1 = '+' ∧ c2 = '?' then
      (some (some (nf + 1), l0.drop 2),
       some (some (nt + 1), makeLineQ (rest.getD 0 []) (rest.getD 1 [])), true) ::
      lineIterator fuel (rest.drop 2) p (nf + 1) (nt + 1)
    else if c0 = '-' ∧ c1 = '?' ∧ c2 = '+' then
      (some (some (nf + 1), makeLineQ l0 (rest.getD 0 [])),
       some (some (nt + 1), (rest.getD 1 []).drop 2), true) ::
      lineIterator fuel (rest.drop 2) p (nf + 1) (nt + 1)
    else if c0 = '-' then
      (some (some (nf + 1), makeLinePM '-' l0), none, true) ::
      lineIterator fuel rest (p - 1) (nf + 1) nt
    else if c0 = '+' ∧ c1 = '-' ∧ c2 = '-' then
      (none, some (some (nt + 1), makeLinePM '+' l0), true) ::
      lineIterator fuel rest (p + 1) nf (nt + 1)
    else if (c0 = '+' ∧ c1 = ' ') ∨ (c0 = '+' ∧ c1 = '-') then
      flushEntries (p + 1) ++
      (none, some (some (nt + 1), makeLinePM '+' l0), true) ::
      lineIterator fuel rest 0 nf (nt + 1)
    else if c0 = '+' then
      (none, some (some (nt + 1), makeLinePM '+' l0), true) ::
      lineIterator fuel rest (p + 1) nf (nt + 1)
    else if c0 = ' ' then
      (some (some (nf + 1), l0.drop 2), some (some (nt + 1), l0.drop 2), false) ::
      lineIterator fuel rest p (nf + 1) (nt + 1)
    else []

/-!
### Streams of `_line_iterator`

`Fside`/`Tside` project the one-sided yields of `_line_iterator` in
order; `_line_pair_iterator` simply zips them (`linePairIterator_zip`
below).  `numsOf` lists the line numbers present on a stream, and `noDB`
states that no zip partner pair consists of two number-less padding
blanks; the offsets `p.toNat` and `(-p).toNat` account for the
`num_blanks_pending` surplus `p` between the two streams. -/

def Fside (T : List Triple) : List (LineTup × Bool) :=
  T.filterMap (fun tr => tr.1.map (fun lt => (lt, tr.2.2)))

def Tside (T : List Triple) : List (LineTup × Bool) :=
  T.filterMap (fun tr => tr.2.1.map (fun lt => (lt, tr.2.2)))

def numsOf (l : List (LineTup × Bool)) : List Nat :=
  l.filterMap (fun e => e.1.1)

def entryFiller : Option (LineTup × Bool) → Prop
  | some e => e.1.1 = none
  | none => False

def noDB (p : Int) (F T : List (LineTup × Bool)) : Prop :=
  ∀ j : Nat, entryFiller (F[j + p.toNat]?) →
    entryFiller (T[j + (-p).toNat]?) → False

theorem filterMap_replicate_none {γ δ : Type} {f : γ → Option δ} {x : γ}
    (h : f x = none) : ∀ n, (List.replicate n x).filterMap f = [] := by
  intro n
  induction n with
  | zero => rfl
  | succ n ih => rw [List.replicate_succ, List.filterMap_cons, h, ih]

theorem filterMap_replicate_some {γ δ : Type} {f : γ → Option δ} {x : γ}
    {y : δ} (h : f x = some y) :
    ∀ n, (List.replicate n x).filterMap f = List.replicate n y := by
  intro n
  induction n with
  | zero => rfl
  | succ n ih =>
    rw [List.replicate_succ, List.filterMap_cons, h, ih, List.replicate_succ]

theorem Fside_flush (t : Int) :
    Fside (flushEntries t) =
      List.replicate t.toNat (((none : Option Nat), sL "\n"), true) := by
  unfold flushEntries Fside
  split
  · rw [filterMap_replicate_none rfl]
    have : t.toNat = 0 := by omega
    rw [this]
    rfl
  · refine filterMap_replicate_some ?_ _
    rfl

theorem Tside_flush (t : Int) :
    Tside (flushEntries t) =
      List.replicate (-t).toNat (((none : Option Nat), sL "\n"), true) := by
  unfold flushEntries Tside
  split
  · refine filterMap_replicate_some ?_ _
    rfl
  · rw [filterMap_replicate_none rfl]
    have : (-t).toNat = 0 := by omega
    rw [this]
    rfl

theorem numsOf_replicate_filler (n : Nat) (x : Str) (c : Bool) :
    numsOf (List.replicate n (((none : Option Nat), x), c)) = [] :=
  filterMap_replicate_none rfl n

theorem numsOf_append (l1 l2 : List (LineTup × Bool)) :
    numsOf (l1 ++ l2) = numsOf l1 ++ numsOf l2 :=
  List.filterMap_append _ _ _

/-- Prepending a numbered from-side entry: the surplus was `p - 1`. -/
theorem noDB_cons_num_from (p : Int) {F T : List (LineTup × Bool)}
    (k : Nat) (x : Str) (c : Bool) (h : noDB (p - 1) F T) :
    noDB p ((((some k : Option Nat), x), c) :: F) T := by
  intro j hF hT
  by_cases hp : 1 ≤ p
  · have e1 : j + p.toNat = (j + (p - 1).toNat) + 1 := by omega
    rw [e1, List.getElem?_cons_succ] at hF
    have e2 : j + (-p).toNat = j + (-(p - 1)).toNat := by omega
    rw [e2] at hT
    exact h j hF hT
  · match j with
    | 0 =>
      have e1 : 0 + p.toNat = 0 := by omega
      rw [e1, List.getElem?_cons_zero] at hF
      exact absurd hF (by simp [entryFiller])
    | j + 1 =>
      have e1 : (j + 1) + p.toNat = (j + (p - 1).toNat) + 1 := by omega
      rw [e1, List.getElem?_cons_succ] at hF
      have e2 : (j + 1) + (-p).toNat = j + (-(p - 1)).toNat := by omega
      rw [e2] at hT
      exact h j hF hT

/-- Prepending a numbered to-side entry: the surplus was `p + 1`. -/
theorem noDB_cons_num_to (p : Int) {F T : List (LineTup × Bool)}
    (k : Nat) (x : Str) (c : Bool) (h : noDB (p + 1) F T) :
    noDB p F ((((some k : Option Nat), x), c) :: T) := by
  intro j hF hT
  by_cases hp : p ≤ -1
  · have e2 : j + (-p).toNat = (j + (-(p + 1)).toNat) + 1 := by omega
    rw [e2, List.getElem?_cons_succ] at hT
    have e1 : j + p.toNat = j + (p + 1).toNat := by omega
    rw [e1] at hF
    exact h j hF hT
  · match j with
    | 0 =>
      have e2 : 0 + (-p).toNat = 0 := by omega
      rw [e2, List.getElem?_cons_zero] at hT
      exact absurd hT (by simp [entryFiller])
    | j + 1 =>
      have e2 : (j + 1) + (-p).toNat = (j + (-(p + 1)).toNat) + 1 := by omega
      rw [e2, List.getElem?_cons_succ] at hT
      have e1 : (j + 1) + p.toNat = j + (p + 1).toNat := by omega
      rw [e1] at hF
      exact h j hF hT

/-- Prepending one numbered entry on each side keeps the surplus. -/
theorem noDB_cons_both {p : Int} {F T : List (LineTup × Bool)}
    (k1 k2 : Nat) (x y : Str) (c1 c2 : Bool) (h : noDB p F T) :
    noDB p ((((some k1 : Option Nat), x), c1) :: F)
      ((((some k2 : Option Nat), y), c2) :: T) := by
  intro j hF hT
  by_cases hp : 0 ≤ p
  · match j with
    | 0 =>
      have e2 : 0 + (-p).toNat = 0 := by omega
      rw [e2, List.getElem?_cons_zero] at hT
      exact absurd hT (by simp [entryFiller])
    | j + 1 =>
      have e1 : (j + 1) + p.toNat = (j + p.toNat) + 1 := by omega
      have e2 : (j + 1) + (-p).toNat = (j + (-p).toNat) + 1 := by omega
      rw [e1, List.getElem?_cons_succ] at hF
      rw [e2, List.getElem?_cons_succ] at hT
      exact h j hF hT
  · match j with
    | 0 =>
      have e1 : 0 + p.toNat = 0 := by omega
      rw [e1, List.getElem?_cons_zero] at hF
      exact absurd hF (by simp [entryFiller])
    | j + 1 =>
      have e1 : (j + 1) + p.toNat = (j + p.toNat) + 1 := by omega
      have e2 : (j + 1) + (-p).toNat = (j + (-p).toNat) + 1 := by omega
      rw [e1, List.getElem?_cons_succ] at hF
      rw [e2, List.getElem?_cons_succ] at hT
      exact h j hF hT

/-- The flush-then-delete step of `_line_iterator` (the `'- '`-type
branches): `num_blanks_to_yield = p - 1` blanks on one side, a numbered
from-line, and a balanced remainder. -/
theorem noDB_flush_from {F T : List (LineTup × Bool)} (p : Int) (fx x : Str)
    (k : Nat) (c c' : Bool) (h : noDB 0 F T) :
    noDB p
      (List.replicate (p - 1).toNat (((none : Option Nat), fx), c') ++
        (((some k : Option Nat), x), c) :: F)
      (List.replicate (-(p - 1)).toNat (((none : Option Nat), fx), c') ++ T) := by
  intro j hF hT
  by_cases hp : 1 ≤ p
  · have e1 : (List.replicate (p - 1).toNat
        (((none : Option Nat), fx), c')).length ≤ j + p.toNat := by
      rw [List.length_replicate]; omega
    rw [List.getElem?_append_right e1, List.length_replicate] at hF
    have e2 : j + p.toNat - (p - 1).toNat = j + 1 := by omega
    rw [e2, List.getElem?_cons_succ] at hF
    have e3 : (-(p - 1)).toNat = 0 := by omega
    rw [e3] at hT
    simp only [List.replicate_zero, List.nil_append] at hT
    have e4 : j + (-p).toNat = j := by omega
    rw [e4] at hT
    exact h j (by simpa using hF) (by simpa using hT)
  · have e0 : (p - 1).toNat = 0 := by omega
    rw [e0] at hF
    simp only [List.replicate_zero, List.nil_append] at hF
    match j with
    | 0 =>
      have e1 : 0 + p.toNat = 0 := by omega
      rw [e1, List.getElem?_cons_zero] at hF
      exact absurd hF (by simp [entryFiller])
    | j + 1 =>
      have e1 : (j + 1) + p.toNat = j + 1 := by omega
      rw [e1, List.getElem?_cons_succ] at hF
      have e2 : (List.replicate (-(p - 1)).toNat
          (((none : Option Nat), fx), c')).length ≤ (j + 1) + (-p).toNat := by
        rw [List.length_replicate]; omega
      rw [List.getElem?_append_right e2, List.length_replicate] at hT
      have e3 : (j + 1) + (-p).toNat - (-(p - 1)).toNat = j := by omega
      rw [e3] at hT
      exact h j (by simpa using hF) (by simpa using hT)

/-- The flush-then-insert step (the `'+ '`-type branches). -/
theorem noDB_flush_to {F T : List (LineTup × Bool)} (p : Int) (fx x : Str)
    (k : Nat) (c c' : Bool) (h : noDB 0 F T) :
    noDB p
      (List.replicate (p + 1).toNat (((none : Option Nat), fx), c') ++ F)
      (List.replicate (-(p + 1)).toNat (((none : Option Nat), fx), c') ++
        (((some k : Option Nat), x), c) :: T) := by
  intro j hF hT
  by_cases hp : 0 ≤ p
  · have e3 : (-(p + 1)).toNat = 0 := by omega
    rw [e3] at hT
    simp only [List.replicate_zero, List.nil_append] at hT
    match j with
    | 0 =>
      have e2 : 0 + (-p).toNat = 0 := by omega
      rw [e2, List.getElem?_cons_zero] at hT
      exact absurd hT (by simp [entryFiller])
    | j + 1 =>
      have e2 : (j + 1) + (-p).toNat = j + 1 := by omega
      rw [e2, List.getElem?_cons_succ] at hT
      have e1 : (List.replicate (p + 1).toNat
          (((none : Option Nat), fx), c')).length ≤ (j + 1) + p.toNat := by
        rw [List.length_replicate]; omega
      rw [List.getElem?_append_right e1, List.length_replicate] at hF
      have e4 : (j + 1) + p.toNat - (p + 1).toNat = j := by omega
      rw [e4] at hF
      exact h j (by simpa using hF) (by simpa using hT)
  · have e0 : (p + 1).toNat = 0 := by omega
    rw [e0] at hF
    simp only [List.replicate_zero, List.nil_append] at hF
    have e1 : j + p.toNat = j := by omega
    rw [e1] at hF
    have e2 : (List.replicate (-(p + 1)).toNat
        (((none : Option Nat), fx), c')).length ≤ j + (-p).toNat := by
      rw [List.length_replicate]; omega
    rw [List.getElem?_append_right e2, List.length_replicate] at hT
    have e3 : j + (-p).toNat - (-(p + 1)).toNat = j + 1 := by omega
    rw [e3, List.getElem?_cons_succ] at hT
    exact h j (by simpa using hF) (by simpa using hT)

/-- The final flush of `_line_iterator`: the two blank runs never form a
partner pair. -/
theorem noDB_end (p : Int) (fx : Str) (c' : Bool) :
    noDB p (List.replicate p.toNat (((none : Option Nat), fx), c'))
      (List.replicate (-p).toNat (((none : Option Nat), fx), c')) := by
  intro j hF _
  rw [List.getElem?_eq_none (by rw [List.length_replicate]; omega)] at hF
  exact hF

theorem Fside_cons_some (a : LineTup) (o : Option LineTup) (c : Bool)
    (L : List Triple) : Fside ((some a, o, c) :: L) = (a, c) :: Fside L := rfl

theorem Fside_cons_none (o : Option LineTup) (c : Bool) (L : List Triple) :
    Fside ((none, o, c) :: L) = Fside L := rfl

theorem Tside_cons_some (o : Option LineTup) (b : LineTup) (c : Bool)
    (L : List Triple) : Tside ((o, some b, c) :: L) = (b, c) :: Tside L := rfl

theorem Tside_cons_none (o : Option LineTup) (c : Bool) (L : List Triple) :
    Tside ((o, none, c) :: L) = Tside L := rfl

theorem Fside_append (l1 l2 : List Triple) :
    Fside (l1 ++ l2) = Fside l1 ++ Fside l2 := List.filterMap_append _ _ _

theorem Tside_append (l1 l2 : List Triple) :
    Tside (l1 ++ l2) = Tside l1 ++ Tside l2 := List.filterMap_append _ _ _

theorem numsOf_cons_num (k : Nat) (x : Str) (c : Bool)
    (L : List (LineTup × Bool)) :
    numsOf (((some k, x), c) :: L) = k :: numsOf L := rfl

theorem dF_cons_true {l : Str} (ts : List Str)
    (h : fromTagChar (firstChar l) = true) : dF (l :: ts) = dF ts + 1 := by
  unfold dF
  rw [List.countP_cons, h]
  rfl

theorem dF_cons_false {l : Str} (ts : List Str)
    (h : fromTagChar (firstChar l) = false) : dF (l :: ts) = dF ts := by
  unfold dF
  rw [List.countP_cons, h]
  rfl

theorem dT_cons_true {l : Str} (ts : List Str)
    (h : toTagChar (firstChar l) = true) : dT (l :: ts) = dT ts + 1 := by
  unfold dT
  rw [List.countP_cons, h]
  rfl

theorem dT_cons_false {l : Str} (ts : List Str)
    (h : toTagChar (firstChar l) = false) : dT (l :: ts) = dT ts := by
  unfold dT
  rw [List.countP_cons, h]
  rfl

/-- Inverting a well-formed delta behind a `'+'` line. -/
theorem WfD_plus_inv {l : Str} {ts : List Str} (h : WfD (l :: ts))
    (hc : firstChar l = '+') : WfD ts := by
  cases h with
  | space h0 ht => rw [h0] at hc; exact absurd hc (by decide)
  | minus h0 ht => rw [h0] at hc; exact absurd hc (by decide)
  | plus h0 ht => exact ht
  | q1 h0 h1 h2 h3 ht => rw [h0] at hc; exact absurd hc (by decide)
  | q2 h0 h1 h2 ht => rw [h0] at hc; exact absurd hc (by decide)
  | q3 h0 h1 h2 ht => rw [h0] at hc; exact absurd hc (by decide)

/-- The lookahead character over a well-formed delta is never `'?'`. -/
theorem WfD_c1_ne {ts : List Str} (ht : WfD ts) :
    (((ts[0]?).map firstChar).getD 'X') ≠ '?' := by
  match ts, ht with
  | [], _ => decide
  | l1 :: ts1, ht =>
    simp only [List.getElem?_cons_zero, Option.map_some', Option.getD_some]
    exact WfD_head_ne ht

theorem WfD_c2_ne_of_c1_plus {ts : List Str} (ht : WfD ts)
    (hc1 : (((ts[0]?).map firstChar).getD 'X') = '+') :
    (((ts[1]?).map firstChar).getD 'X') ≠ '?' := by
  match ts, ht with
  | [], _ => exact absurd hc1 (by decide)
  | l1 :: ts1, ht =>
    simp only [List.getElem?_cons_zero, Option.map_some',
      Option.getD_some] at hc1
    simp only [List.getElem?_cons_succ]
    exact WfD_c1_ne (WfD_plus_inv ht hc1)

/-- The complete stream analysis of `_line_iterator` on a well-formed
delta, starting from pending count `p` and `_make_line` counters
`nf`/`nt`: the from-side numbers are exactly `nf+1 .. nf+dF d` in order,
the to-side numbers `nt+1 .. nt+dT d`, the stream lengths differ by the
pending count, and no partner pair is blank on both sides. -/
theorem lineIterator_spec :
    ∀ {d : List Str}, WfD d → ∀ (fuel : Nat), d.length < fuel →
    ∀ (p : Int) (nf nt : Nat),
    numsOf (Fside (lineIterator fuel d p nf nt)) =
      List.range' (nf + 1) (dF d) ∧
    numsOf (Tside (lineIterator fuel d p nf nt)) =
      List.range' (nt + 1) (dT d) ∧
    ((Fside (lineIterator fuel d p nf nt)).length : Int) =
      (Tside (lineIterator fuel d p nf nt)).length + p ∧
    noDB p (Fside (lineIterator fuel d p nf nt))
      (Tside (lineIterator fuel d p nf nt)) := by
  intro d hw
  induction hw with
  | nil =>
    intro fuel hf p nf nt
    match fuel with
    | fuel + 1 =>
      rw [lineIterator, Fside_flush, Tside_flush]
      refine ⟨?_, ?_, ?_, noDB_end p _ _⟩
      · rw [numsOf_replicate_filler]; rfl
      · rw [numsOf_replicate_filler]; rfl
      · rw [List.length_replicate, List.length_replicate]; omega
  | @space l ts h ht ih =>
    intro fuel hf p nf nt
    match fuel with
    | fuel + 1 =>
      have hrec := ih fuel (by simp only [List.length_cons] at hf; omega)
        p (nf + 1) (nt + 1)
      rw [lineIterator]
      rw [if_neg (by rw [h]; decide)]
      rw [if_neg (by rw [h]; simp)]
      rw [if_neg (by rw [h]; simp)]
      rw [if_neg (by rw [h]; simp)]
      rw [if_neg (by rw [h]; simp)]
      rw [if_neg (by rw [h]; simp)]
      rw [if_neg (by rw [h]; simp)]
      rw [if_neg (by rw [h]; simp)]
      rw [if_neg (by rw [h]; simp)]
      rw [if_neg (by rw [h]; simp)]
      rw [if_pos h]
      rw [Fside_cons_some, Tside_cons_some, numsOf_cons_num, numsOf_cons_num]
      have hdF : dF (l :: ts) = dF ts + 1 :=
        dF_cons_true ts (by rw [h]; rfl)
      have hdT : dT (l :: ts) = dT ts + 1 :=
        dT_cons_true ts (by rw [h]; rfl)
      rw [hdF, hdT, List.range'_succ, List.range'_succ]
      refine ⟨?_, ?_, ?_, noDB_cons_both _ _ _ _ _ _ hrec.2.2.2⟩
      · rw [hrec.1]
      · rw [hrec.2.1]
      · simp only [List.length_cons]
        have := hrec.2.2.1
        omega
  | @minus l ts h ht ih =>
    intro fuel hf p nf nt
    match fuel with
    | fuel + 1 =>
      have hc1 := WfD_c1_ne ht
      have hc2p := WfD_c2_ne_of_c1_plus ht
      have hyield : ∀ q : Int,
          numsOf (Fside ((some (some (nf + 1), makeLinePM '-' l), none, true) ::
            lineIterator fuel ts q (nf + 1) nt)) =
            List.range' (nf + 1) (dF (l :: ts)) ∧
          numsOf (Tside ((some (some (nf + 1), makeLinePM '-' l), none, true) ::
            lineIterator fuel ts q (nf + 1) nt)) =
            List.range' (nt + 1) (dT (l :: ts)) ∧
          ((Fside ((some (some (nf + 1), makeLinePM '-' l), none, true) ::
            lineIterator fuel ts q (nf + 1) nt)).length : Int) =
            (Tside ((some (some (nf + 1), makeLinePM '-' l), none, true) ::
            lineIterator fuel ts q (nf + 1) nt)).length + (q + 1) ∧
          noDB (q + 1)
            (Fside ((some (some (nf + 1), makeLinePM '-' l), none, true) ::
              lineIterator fuel ts q (nf + 1) nt))
            (Tside ((some (some (nf + 1), makeLinePM '-' l), none, true) ::
              lineIterator fuel ts q (nf + 1) nt)) := by
        intro q
        have hrec := ih fuel (by simp only [List.length_cons] at hf; omega)
          q (nf + 1) nt
        rw [Fside_cons_some, Tside_cons_none, numsOf_cons_num]
        have hdF : dF (l :: ts) = dF ts + 1 :=
          dF_cons_true ts (by rw [h]; rfl)
        have hdT : dT (l :: ts) = dT ts :=
          dT_cons_false ts (by rw [h]; rfl)
        rw [hdF, hdT, List.range'_succ]
        refine ⟨?_, hrec.2.1, ?_, ?_⟩
        · rw [hrec.1]
        · simp only [List.length_cons]
          have := hrec.2.2.1
          omega
        · have := noDB_cons_num_from (q + 1) (nf + 1) (makeLinePM '-' l)
            true (by
              have e : q + 1 - 1 = q := by omega
              rw [e]
              exact hrec.2.2.2)
          exact this
      rw [lineIterator]
      rw [if_neg (by rw [h]; decide)]
      rw [if_neg (by
        rintro ⟨-, hq, -⟩
        exact hc1 hq)]
      by_cases hA2 : firstChar l = '-' ∧
          (((ts[0]?).map firstChar).getD 'X') = '-' ∧
          (((ts[1]?).map firstChar).getD 'X') = '+' ∧
          (((ts[2]?).map firstChar).getD 'X') = '+'
      · rw [if_pos hA2]
        have := hyield (p - 1)
        have e : p - 1 + 1 = p := by omega
        rw [e] at this
        exact this
      · rw [if_neg hA2]
        by_cases hA3 : (firstChar l = '-' ∧
            (((ts[0]?).map firstChar).getD 'X') = '-' ∧
            (((ts[1]?).map firstChar).getD 'X') = '?' ∧
            (((ts[2]?).map firstChar).getD 'X') = '+') ∨
            (firstChar l = '-' ∧
              (((ts[0]?).map firstChar).getD 'X') = '-' ∧
              (((ts[1]?).map firstChar).getD 'X') = '+') ∨
            (firstChar l = '-' ∧ (((ts[0]?).map firstChar).getD 'X') = ' ')
        · rw [if_pos hA3]
          have hrec := ih fuel (by simp only [List.length_cons] at hf; omega)
            0 (nf + 1) nt
          rw [Fside_append, Tside_append, Fside_flush, Tside_flush,
            Fside_cons_some, Tside_cons_none, numsOf_append,
            numsOf_replicate_filler, numsOf_append, numsOf_replicate_filler,
            numsOf_cons_num]
          have hdF : dF (l :: ts) = dF ts + 1 :=
            dF_cons_true ts (by rw [h]; rfl)
          have hdT : dT (l :: ts) = dT ts :=
            dT_cons_false ts (by rw [h]; rfl)
          rw [hdF, hdT, List.range'_succ]
          refine ⟨?_, ?_, ?_, ?_⟩
          · rw [List.nil_append, hrec.1]
          · rw [List.nil_append, hrec.2.1]
          · simp only [List.length_append, List.length_replicate,
              List.length_cons]
            have := hrec.2.2.1
            omega
          · exact noDB_flush_from p _ _ (nf + 1) true true hrec.2.2.2
        · rw [if_neg hA3]
          rw [if_neg (by
            rintro ⟨-, hq1, hq2⟩
            exact hc2p hq1 hq2)]
          rw [if_neg (by
            rintro ⟨-, hq, -⟩
            exact hc1 hq)]
          rw [if_pos h]
          have := hyield (p - 1)
          have e : p - 1 + 1 = p := by omega
          rw [e] at this
          exact this
  | @plus l ts h ht ih =>
    intro fuel hf p nf nt
    match fuel with
    | fuel + 1 =>
      have hyield : ∀ q : Int,
          numsOf (Fside ((none, some (some (nt + 1), makeLinePM '+' l), true) ::
            lineIterator fuel ts q nf (nt + 1))) =
            List.range' (nf + 1) (dF (l :: ts)) ∧
          numsOf (Tside ((none, some (some (nt + 1), makeLinePM '+' l), true) ::
            lineIterator fuel ts q nf (nt + 1))) =
            List.range' (nt + 1) (dT (l :: ts)) ∧
          ((Fside ((none, some (some (nt + 1), makeLinePM '+' l), true) ::
            lineIterator fuel ts q nf (nt + 1))).length : Int) =
            (Tside ((none, some (some (nt + 1), makeLinePM '+' l), true) ::
            lineIterator fuel ts q nf (nt + 1))).length + (q - 1) ∧
          noDB (q - 1)
            (Fside ((none, some (some (nt + 1), makeLinePM '+' l), true) ::
              lineIterator fuel ts q nf (nt + 1)))
            (Tside ((none, some (some (nt + 1), makeLinePM '+' l), true) ::
              lineIterator fuel ts q nf (nt + 1))) := by
        intro q
        have hrec := ih fuel (by simp only [List.length_cons] at hf; omega)
          q nf (nt + 1)
        rw [Fside_cons_none, Tside_cons_some, numsOf_cons_num]
        have hdF : dF (l :: ts) = dF ts :=
          dF_cons_false ts (by rw [h]; rfl)
        have hdT : dT (l :: ts) = dT ts + 1 :=
          dT_cons_true ts (by rw [h]; rfl)
        rw [hdF, hdT, List.range'_succ]
        refine ⟨hrec.1, ?_, ?_, ?_⟩
        · rw [hrec.2.1]
        · simp only [List.length_cons]
          have := hrec.2.2.1
          omega
        · have := noDB_cons_num_to (q - 1) (nt + 1) (makeLinePM '+' l)
            true (by
              have e : q - 1 + 1 = q := by omega
              rw [e]
              exact hrec.2.2.2)
          exact this
      rw [lineIterator]
      rw [if_neg (by rw [h]; decide)]
      rw [if_neg (by rw [h]; simp)]
      rw [if_neg (by rw [h]; simp)]
      rw [if_neg (by rw [h]; simp)]
      rw [if_neg (by rw [h]; simp)]
      rw [if_neg (by rw [h]; simp)]
      rw [if_neg (by rw [h]; simp)]
      by_cases hB1 : firstChar l = '+' ∧
          (((ts[0]?).map firstChar).getD 'X') = '-' ∧
          (((ts[1]?).map firstChar).getD 'X') = '-'
      · rw [if_pos hB1]
        have := hyield (p + 1)
        have e : p + 1 - 1 = p := by omega
        rw [e] at this
        exact this
      · rw [if_neg hB1]
        by_cases hB2 : (firstChar l = '+' ∧
            (((ts[0]?).map firstChar).getD 'X') = ' ') ∨
            (firstChar l = '+' ∧ (((ts[0]?).map firstChar).getD 'X') = '-')
        · rw [if_pos hB2]
          have hrec := ih fuel (by simp only [List.length_cons] at hf; omega)
            0 nf (nt + 1)
          rw [Fside_append, Tside_append, Fside_flush, Tside_flush,
            Fside_cons_none, Tside_cons_some, numsOf_append,
            numsOf_replicate_filler, numsOf_append, numsOf_replicate_filler,
            numsOf_cons_num]
          have hdF : dF (l :: ts) = dF ts :=
            dF_cons_false ts (by rw [h]; rfl)
          have hdT : dT (l :: ts) = dT ts + 1 :=
            dT_cons_true ts (by rw [h]; rfl)
          rw [hdF, hdT, List.range'_succ]
          refine ⟨?_, ?_, ?_, ?_⟩
          · rw [List.nil_append, hrec.1]
          · rw [List.nil_append, hrec.2.1]
          · simp only [List.length_append, List.length_replicate,
              List.length_cons]
            have := hrec.2.2.1
            omega
          · exact noDB_flush_to p _ _ (nt + 1) true true hrec.2.2.2
        · rw [if_neg hB2]
          rw [if_pos h]
          have := hyield (p + 1)
          have e : p + 1 - 1 = p := by omega
          rw [e] at this
          exact this
  | @q1 l0 l1 l2 l3 ts h0 h1 h2 h3 ht ih =>
    intro fuel hf p nf nt
    match fuel with
    | fuel + 1 =>
      have hrec := ih fuel (by simp only [List.length_cons] at hf; omega)
        p (nf + 1) (nt + 1)
      rw [lineIterator]
      simp only [List.getElem?_cons_zero, List.getElem?_cons_succ,
        Option.map_some', Option.getD_some, List.getD_cons_zero,
        List.getD_cons_succ, List.drop_succ_cons, List.drop_zero]
      rw [if_neg (by rw [h0]; decide)]
      rw [if_pos ⟨h0, h1, h2, h3⟩]
      rw [Fside_cons_some, Tside_cons_some, numsOf_cons_num, numsOf_cons_num]
      have hdF : dF (l0 :: l1 :: l2 :: l3 :: ts) = dF ts + 1 := by
        rw [dF_cons_true _ (by rw [h0]; rfl), dF_cons_false _ (by rw [h1]; rfl),
          dF_cons_false _ (by rw [h2]; rfl), dF_cons_false _ (by rw [h3]; rfl)]
      have hdT : dT (l0 :: l1 :: l2 :: l3 :: ts) = dT ts + 1 := by
        rw [dT_cons_false _ (by rw [h0]; rfl), dT_cons_false _ (by rw [h1]; rfl),
          dT_cons_true _ (by rw [h2]; rfl), dT_cons_false _ (by rw [h3]; rfl)]
      rw [hdF, hdT, List.range'_succ, List.range'_succ]
      refine ⟨?_, ?_, ?_, noDB_cons_both _ _ _ _ _ _ hrec.2.2.2⟩
      · rw [hrec.1]
      · rw [hrec.2.1]
      · simp only [List.length_cons]
        have := hrec.2.2.1
        omega
  | @q2 l0 l1 l2 ts h0 h1 h2 ht ih =>
    intro fuel hf p nf nt
    match fuel with
    | fuel + 1 =>
      have hrec := ih fuel (by simp only [List.length_cons] at hf; omega)
        p (nf + 1) (nt + 1)
      have hc3 : (((ts[0]?).map firstChar).getD 'X') ≠ '?' := WfD_c1_ne ht
      rw [lineIterator]
      simp only [List.getElem?_cons_zero, List.getElem?_cons_succ,
        Option.map_some', Option.getD_some, List.getD_cons_zero,
        List.getD_cons_succ, List.drop_succ_cons, List.drop_zero]
      rw [if_neg (by rw [h0]; decide)]
      rw [if_neg (by
        rintro ⟨-, -, -, hq⟩
        exact hc3 hq)]
      rw [if_neg (by
        rintro ⟨-, hq, -⟩
        rw [h1] at hq
        exact absurd hq (by decide))]
      rw [if_neg (by
        rintro (⟨-, hq, -⟩ | ⟨-, hq, -⟩ | ⟨-, hq⟩) <;>
          (rw [h1] at hq; exact absurd hq (by decide)))]
      rw [if_neg (by
        rintro ⟨-, hq, -⟩
        rw [h1] at hq
        exact absurd hq (by decide))]
      rw [if_pos ⟨h0, h1, h2⟩]
      rw [Fside_cons_some, Tside_cons_some, numsOf_cons_num, numsOf_cons_num]
      have hdF : dF (l0 :: l1 :: l2 :: ts) = dF ts + 1 := by
        rw [dF_cons_true _ (by rw [h0]; rfl), dF_cons_false _ (by rw [h1]; rfl),
          dF_cons_false _ (by rw [h2]; rfl)]
      have hdT : dT (l0 :: l1 :: l2 :: ts) = dT ts + 1 := by
        rw [dT_cons_false _ (by rw [h0]; rfl), dT_cons_false _ (by rw [h1]; rfl),
          dT_cons_true _ (by rw [h2]; rfl)]
      rw [hdF, hdT, List.range'_succ, List.range'_succ]
      refine ⟨?_, ?_, ?_, noDB_cons_both _ _ _ _ _ _ hrec.2.2.2⟩
      · rw [hrec.1]
      · rw [hrec.2.1]
      · simp only [List.length_cons]
        have := hrec.2.2.1
        omega
  | @q3 l0 l1 l2 ts h0 h1 h2 ht ih =>
    intro fuel hf p nf nt
    match fuel with
    | fuel + 1 =>
      have hrec := ih fuel (by simp only [List.length_cons] at hf; omega)
        p (nf + 1) (nt + 1)
      rw [lineIterator]
      simp only [List.getElem?_cons_zero, List.getElem?_cons_succ,
        Option.map_some', Option.getD_some, List.getD_cons_zero,
        List.getD_cons_succ, List.drop_succ_cons, List.drop_zero]
      rw [if_neg (by rw [h0]; decide)]
      rw [if_neg (by
        rintro ⟨-, hq, -⟩
        rw [h1] at hq
        exact absurd hq (by decide))]
      rw [if_neg (by
        rintro ⟨-, hq, -⟩
        rw [h1] at hq
        exact absurd hq (by decide))]
      rw [if_neg (by
        rintro (⟨-, hq, -⟩ | ⟨-, hq, -⟩ | ⟨-, hq⟩) <;>
          (rw [h1] at hq; exact absurd hq (by decide)))]
      rw [if_pos ⟨h0, h1, h2⟩]
      rw [Fside_cons_some, Tside_cons_some, numsOf_cons_num, numsOf_cons_num]
      have hdF : dF (l0 :: l1 :: l2 :: ts) = dF ts + 1 := by
        rw [dF_cons_true _ (by rw [h0]; rfl), dF_cons_false _ (by rw [h1]; rfl),
          dF_cons_false _ (by rw [h2]; rfl)]
      have hdT : dT (l0 :: l1 :: l2 :: ts) = dT ts + 1 := by
        rw [dT_cons_false _ (by rw [h0]; rfl), dT_cons_true _ (by rw [h1]; rfl),
          dT_cons_false _ (by rw [h2]; rfl)]
      rw [hdF, hdT, List.range'_succ, List.range'_succ]
      refine ⟨?_, ?_, ?_, noDB_cons_both _ _ _ _ _ _ hrec.2.2.2⟩
      · rw [hrec.1]
      · rw [hrec.2.1]
      · simp only [List.length_cons]
        have := hrec.2.2.1
        omega

/-- `_mdiff._line_pair_iterator` (difflib.py lines 1526-1555): collect
one-sided yields in two queues and emit a pair as soon as both are
nonempty; when the underlying iterator is exhausted while a queue is
empty, stop.  The countdown `3*|triples| + |queues| + 1` strictly exceeds
the number of loop steps (each pull costs one triple, each pop two queue
entries), so it cannot run out. -/
def linePairIterator :
    Nat → List Triple → List (LineTup × Bool) → List (LineTup × Bool) → List PairT
  | 0, _, _, _ => []
  | fuel + 1, ts, (f, fd) :: qf, (t, td) :: qt =>
    (f, t, fd || td) :: linePairIterator fuel ts qf qt
  | _ + 1, [], _, _ => []
  | fuel + 1, tr :: ts, qf, qt =>
    linePairIterator fuel ts
      (qf ++ (match tr.1 with | some f => [(f, tr.2.2)] | none => []))
      (qt ++ (match tr.2.1 with | some t => [(t, tr.2.2)] | none => []))

theorem Fside_cons (tr : Triple) (ts : List Triple) :
    Fside (tr :: ts) =
      (match tr.1 with | some f => [(f, tr.2.2)] | none => []) ++ Fside ts := by
  rcases tr with ⟨_ | f, o2, c⟩ <;> rfl

theorem Tside_cons (tr : Triple) (ts : List Triple) :
    Tside (tr :: ts) =
      (match tr.2.1 with | some t => [(t, tr.2.2)] | none => []) ++ Tside ts := by
  rcases tr with ⟨o1, _ | t, c⟩ <;> rfl

/-- `_line_pair_iterator` zips the two one-sided streams: queue entries
pair up in arrival order, and the leftover of the longer stream is
dropped when the iterator is exhausted. -/
theorem linePairIterator_zip :
    ∀ (fuel : Nat) (ts : List Triple) (qf qt : List (LineTup × Bool)),
    min (qf.length + (Fside ts).length) (qt.length + (Tside ts).length) +
      ts.length < fuel →
    linePairIterator fuel ts qf qt =
      List.zipWith (fun f t => (f.1, t.1, f.2 || t.2)) (qf ++ Fside ts)
        (qt ++ Tside ts) := by
  intro fuel
  induction fuel with
  | zero => intro ts qf qt hm; omega
  | succ fuel ih =>
    intro ts qf qt hm
    rcases qf with _ | ⟨⟨f, fd⟩, qf⟩ <;> rcases qt with _ | ⟨⟨t, td⟩, qt⟩
    · rcases ts with _ | ⟨tr, ts⟩
      · rfl
      · rw [linePairIterator, Fside_cons, Tside_cons]
        rw [show ([] : List (LineTup × Bool)) ++
          ((match tr.1 with | some f => [(f, tr.2.2)] | none => []) ++ Fside ts) =
          ([] ++ (match tr.1 with | some f => [(f, tr.2.2)] | none => [])) ++
            Fside ts from by simp]
        rw [show ([] : List (LineTup × Bool)) ++
          ((match tr.2.1 with | some t => [(t, tr.2.2)] | none => []) ++ Tside ts) =
          ([] ++ (match tr.2.1 with | some t => [(t, tr.2.2)] | none => [])) ++
            Tside ts from by simp]
        refine ih ts _ _ ?_
        rw [Fside_cons, Tside_cons] at hm
        simp only [List.length_append, List.length_cons, List.length_nil] at hm ⊢
        omega
        intro a1 a2 a3 a4 a5 a6 hh1 hh2
        first
        | exact List.noConfusion hh1
        | exact List.noConfusion hh2
    · rcases ts with _ | ⟨tr, ts⟩
      · rfl
      · rw [linePairIterator, Fside_cons, Tside_cons]
        rw [show ([] : List (LineTup × Bool)) ++
          ((match tr.1 with | some f => [(f, tr.2.2)] | none => []) ++ Fside ts) =
          ([] ++ (match tr.1 with | some f => [(f, tr.2.2)] | none => [])) ++
            Fside ts from by simp]
        rw [show (((t, td) :: qt)) ++
          ((match tr.2.1 with | some t => [(t, tr.2.2)] | none => []) ++ Tside ts) =
          (((t, td) :: qt) ++ (match tr.2.1 with | some t => [(t, tr.2.2)] | none => [])) ++
            Tside ts from by simp]
        refine ih ts _ _ ?_
        rw [Fside_cons, Tside_cons] at hm
        simp only [List.length_append, List.length_cons, List.length_nil] at hm ⊢
        omega
        intro a1 a2 a3 a4 a5 a6 hh1 hh2
        first
        | exact List.noConfusion hh1
        | exact List.noConfusion hh2
    · rcases ts with _ | ⟨tr, ts⟩
      · rw [show linePairIterator (fuel + 1) [] ((f, fd) :: qf) [] = [] from rfl]
        simp [Fside, Tside]
      · rw [linePairIterator, Fside_cons, Tside_cons]
        rw [show (((f, fd) :: qf)) ++
          ((match tr.1 with | some f => [(f, tr.2.2)] | none => []) ++ Fside ts) =
          (((f, fd) :: qf) ++ (match tr.1 with | some f => [(f, tr.2.2)] | none => [])) ++
            Fside ts from by simp]
        rw [show ([] : List (LineTup × Bool)) ++
          ((match tr.2.1 with | some t => [(t, tr.2.2)] | none => []) ++ Tside ts) =
          ([] ++ (match tr.2.1 with | some t => [(t, tr.2.2)] | none => [])) ++
            Tside ts from by simp]
        refine ih ts _ _ ?_
        rw [Fside_cons, Tside_cons] at hm
        simp only [List.length_append, List.length_cons, List.length_nil] at hm ⊢
        omega
        intro a1 a2 a3 a4 a5 a6 hh1 hh2
        first
        | exact List.noConfusion hh1
        | exact List.noConfusion hh2
    · rw [linePairIterator]
      simp only [List.cons_append, List.zipWith_cons_cons]
      rw [ih ts qf qt (by
        simp only [List.length_cons] at hm
        omega)]

/-- Inner pull loop of the context branch of `_mdiff` (difflib.py lines
1571-1580): fill the circular buffer until a changed pair is found,
returning the buffer, the final `index` and the unconsumed rest (`none`
when the stream ends first, modelling the `return` on `StopIteration`). -/
def pullUntilDiff (ctx : Nat) :
    List PairT → List (Option PairT) → Nat →
    Option (List (Option PairT) × Nat × List PairT)
  | [], _, _ => none
  | pr :: rest, buf, index =>
    let buf' := buf.set (index % ctx) (some pr)
    if pr.2.2 then some (buf', index + 1, rest)
    else pullUntilDiff ctx rest buf' (index + 1)

/-- Yield loop over the circular buffer (difflib.py lines 1589-1593):
`cnt` entries starting at slot `start % ctx`.  An unwritten slot yields
its initial `None`, exactly as Python would. -/
def yieldBuf (buf : List (Option PairT)) (ctx start cnt : Nat) :
    List MdiffEntry :=
  (List.range cnt).map (fun m => buf.getD ((start + m) % ctx) none)

/-- Post-change context loop of `_mdiff` (difflib.py lines 1594-1607):
emit pairs while the countdown is positive, resetting it on further
changes; `StopIteration` ends the whole generator. -/
def afterCtx (ctx : Nat) : List PairT → Nat → List MdiffEntry × List PairT
  | pairs, 0 => ([], pairs)
  | [], _ + 1 => ([], [])
  | pr :: rest, ltw + 1 =>
    let r := afterCtx ctx rest (if pr.2.2 then ctx - 1 else ltw)
    (some pr :: r.1, r.2)

theorem pullUntilDiff_rest_lt (ctx : Nat) :
    ∀ (pairs : List PairT) (buf : List (Option PairT)) (index : Nat)
    (buf' : List (Option PairT)) (index' : Nat) (rest : List PairT),
    pullUntilDiff ctx pairs buf index = some (buf', index', rest) →
    rest.length < pairs.length := by
  intro pairs
  induction pairs with
  | nil => intro _ _ _ _ _ h; simp [pullUntilDiff] at h
  | cons pr rest ih =>
    intro buf index buf' index' rest' h
    rw [pullUntilDiff] at h
    by_cases hc : pr.2.2 = true
    · rw [if_pos hc] at h
      simp only [Option.some.injEq, Prod.mk.injEq] at h
      have hr : rest = rest' := h.2.2
      simp only [List.length_cons, ← hr]
      omega
    · rw [if_neg hc] at h
      have := ih _ _ _ _ _ h
      simp only [List.length_cons]
      omega

theorem afterCtx_rest_le (ctx : Nat) :
    ∀ (pairs : List PairT) (ltw : Nat),
    (afterCtx ctx pairs ltw).2.length ≤ pairs.length := by
  intro pairs
  induction pairs with
  | nil => intro ltw; cases ltw <;> simp [afterCtx]
  | cons pr rest ih =>
    intro ltw
    cases ltw with
    | zero => simp [afterCtx]
    | succ n =>
      rw [afterCtx]
      have := ih (if pr.2.2 then ctx - 1 else n)
      simp only [List.length_cons]
      omega

/-- Outer `while True` loop of the context branch of `_mdiff`.  Every
round consumes at least the changed pair found by `pullUntilDiff`
(`pullUntilDiff_rest_lt`, `afterCtx_rest_le`), so the countdown
`pairs.length + 1` passed by `mdiff` cannot run out. -/
def contextLoop (ctx : Nat) : Nat → List PairT → List MdiffEntry
  | 0, _ => []
  | fuel + 1, pairs =>
    match pullUntilDiff ctx pairs (List.replicate ctx none) 0 with
    | none => []
    | some (buf, index, rest) =>
      (if index > ctx then (none : MdiffEntry) :: yieldBuf buf ctx index ctx
       else yieldBuf buf ctx 0 index) ++
      (afterCtx ctx rest (ctx - 1)).1 ++
      contextLoop ctx fuel (afterCtx ctx rest (ctx - 1)).2

/-- `difflib._mdiff(fromlines, tolines, context, linejunk, charjunk)`
(difflib.py lines 1340-1607); `context = none` corresponds to Python's
`context=None`, `context = some n` to an integer context (the source adds
one to it before use). -/
def mdiff (fromlines tolines : List Str) (context : Option Nat)
    (linejunk : Option (Str → Bool)) (charjunk : Option (Char → Bool)) :
    List MdiffEntry :=
  let delta := ndiff fromlines tolines linejunk charjunk
  let triples := lineIterator (delta.length + 1) delta 0 0 0
  let pairs := linePairIterator (3 * triples.length + 1) triples [] []
  match context with
  | none => pairs.map some
  | some n => contextLoop (n + 1) (pairs.length + 1) pairs

/-- `CodeDiff.getDiffDetails(fromdesc, todesc, context, numlines, tabSize)`
(diff2HtmlCompare.py lines 319-343): tab-expand both line lists, then run
`difflib._mdiff(..., context_lines, linejunk=None,
charjunk=difflib.IS_CHARACTER_JUNK)`. -/
def getDiffDetails (fromlines tolines : List Str) (context : Bool)
    (numlines tabSize : Nat) : List MdiffEntry :=
  mdiff (fromlines.map (expand_tabs tabSize)) (tolines.map (expand_tabs tabSize))
    (if context then some numlines else none) none (some IS_CHARACTER_JUNK)

/-!
## DiffHtmlFormatter

Embedding of `DiffHtmlFormatter._wrap_code` and
`DiffHtmlFormatter.getDiffLineNos` (diff2HtmlCompare.py lines 152-234).
The highlighted stream `source` is the list of `(i, text)` pairs that
pygments hands to `wrap`; `self.diffs` is the list produced by
`getDiffDetails(context=False)`, whose elements are all genuine pairs.
-/

/-- Python list indexing with negative-index wraparound,
`none` for `IndexError`. -/
def pyIndex {β : Type} (l : List β) (i : Int) : Option β :=
  if i ≥ 0 then l[i.toNat]?
  else if (l.length : Int) + i ≥ 0 then l[((l.length : Int) + i).toNat]?
  else none

/-- The highlight span wrapping of `_wrap_code`. -/
def spanWrap (cls : String) (t : Str) : Str :=
  sL ("<span class=\"" ++ cls ++ "\">") ++ t ++ sL "</span>"

/-- Body of the `try` block of `_wrap_code` for one aligned pair:
`some (i, t)` is the yielded value, `none` means an exception was raised
and swallowed by the bare `except` (the pair is skipped).  Exceptions
arise from the explicit `raise` of the double-classification dead ends,
from comparing `'' <= len(source)` in the unchanged branches, and from an
`IndexError` on `source[-1]` when the line number is `0` over an empty
stream (unreachable from `_mdiff` numbering, which starts at 1). -/
def processPair (isLeft : Bool) (source : List (Nat × Str)) (p : PairT) :
    Option (Nat × Str) :=
  if isLeft then
    if p.2.2 then
      match p.1.1, p.2.1.1 with
      | some l, some _ =>
        if l ≤ source.length then
          (pyIndex source ((l : Int) - 1)).map
            (fun it => (it.1, spanWrap "left_diff_change" it.2))
        else none
      | some l, none =>
        if l ≤ source.length then
          (pyIndex source ((l : Int) - 1)).map
            (fun it => (it.1, spanWrap "left_diff_del" it.2))
        else none
      | none, some _ => some (1, spanWrap "left_diff_add" p.1.2)
      | none, none => none
    else
      match p.1.1 with
      | some l =>
        if l ≤ source.length then pyIndex source ((l : Int) - 1)
        else some (1, p.1.2)
      | none => none
  else
    if p.2.2 then
      match p.1.1, p.2.1.1 with
      | some _, some r =>
        if r ≤ source.length then
          (pyIndex source ((r : Int) - 1)).map
            (fun it => (it.1, spanWrap "right_diff_change" it.2))
        else none
      | some _, none => some (1, spanWrap "right_diff_del" p.2.1.2)
      | none, some r =>
        if r ≤ source.length then
          (pyIndex source ((r : Int) - 1)).map
            (fun it => (it.1, spanWrap "right_diff_add" it.2))
        else none
      | none, none => none
    else
      match p.2.1.1 with
      | some r =>
        if r ≤ source.length then pyIndex source ((r : Int) - 1)
        else some (1, p.2.1.2)
      | none => none

/-- `DiffHtmlFormatter._wrap_code(source)` (diff2HtmlCompare.py lines
185-234): the opening `<pre>`, one yield per pair that survives its `try`
block, and the closing `\n</pre>`. -/
def wrap_code (isLeft : Bool) (source : List (Nat × Str))
    (diffs : List PairT) : List (Nat × Str) :=
  (0, sL "<pre>") :: (diffs.filterMap (processPair isLeft source) ++
    [(0, sL "\n</pre>")])

/-- Python `str(x)` for the line-number slot: `str('') = ''`. -/
def numStr : Option Nat → Str
  | some n => sL (toString n)
  | none => []

/-- One line-number marker of `getDiffLineNos`.  `none` models the `None`
that survives when a changed pair has no side present (Python appends the
unassigned initial `None`). -/
def diffLineNo (isLeft : Bool) (p : PairT) : Option Str :=
  if isLeft then
    if p.2.2 then
      match p.1.1, p.2.1.1 with
      | some l, some _ =>
        some (sL "<span class=\"lineno_q lineno_leftchange\">" ++
          numStr (some l) ++ sL "</span>")
      | some l, none =>
        some (sL "<span class=\"lineno_q lineno_leftdel\">" ++
          numStr (some l) ++ sL "</span>")
      | none, some _ =>
        some (sL "<span class=\"lineno_q lineno_leftadd\">  </span>")
      | none, none => none
    else
      some (sL "<span class=\"lineno_q\">" ++ numStr p.1.1 ++ sL "</span>")
  else
    if p.2.2 then
      match p.1.1, p.2.1.1 with
      | some _, some r =>
        some (sL "<span class=\"lineno_q lineno_rightchange\">" ++
          numStr (some r) ++ sL "</span>")
      | some _, none =>
        some (sL "<span class=\"lineno_q lineno_rightdel\">  </span>")
      | none, some r =>
        some (sL "<span class=\"lineno_q lineno_rightadd\">" ++
          numStr (some r) ++ sL "</span>")
      | none, none => none
    else
      some (sL "<span class=\"lineno_q\">" ++ numStr p.2.1.1 ++ sL "</span>")

/-- `DiffHtmlFormatter.getDiffLineNos` (diff2HtmlCompare.py lines
152-183): one marker appended per aligned pair, unconditionally. -/
def getDiffLineNos (isLeft : Bool) (diffs : List PairT) : List (Option Str) :=
  diffs.map (diffLineNo isLeft)

/-!
## CodeDiff

State of a `CodeDiff` object (diff2HtmlCompare.py lines 280-375): the
constructor captures the line lists and the joined code blobs;
`getDiffDetails` reassigns `self.fromlines`/`self.tolines` with their
tab-expanded versions; `format` then highlights `self.leftcode` and
`self.rightcode`.
-/

/-- The fields of a `CodeDiff` instance that the pipeline reads. -/
structure CodeDiffState where
  fromlines : List Str
  tolines : List Str
  leftcode : Str
  rightcode : Str
deriving DecidableEq, Repr

/-- Python `txt.split("\n")` (single-character separator, keepends
false). -/
def splitOnNl : Str → List Str
  | [] => [[]]
  | c :: cs =>
    if c = '\n' then [] :: splitOnNl cs
    else
      match splitOnNl cs with
      | [] => [[c]]
      | h :: t => (c :: h) :: t

/-- The `fromtxt`/`totxt` raw-text route of `CodeDiff.__init__`: the
source's list comprehension `[n + "\n" for n in fromtxt.split("\n")]`
(diff2HtmlCompare.py lines 303 and 316), appending a newline to every
piece of the split, including the last. -/
def linesFromTxt (txt : Str) : List Str :=
  (splitOnNl txt).map (fun n => n ++ ['\n'])

/-- Python `f.readlines()` over in-memory content: split after every
newline, keeping the terminators, with a final piece only when the content
does not end in a newline.  Each round consumes at least one character, so
the countdown `length + 1` cannot run out. -/
def pyReadlinesGo : Nat → Str → List Str
  | 0, _ => []
  | fuel + 1, s =>
    if s = [] then []
    else
      let line := s.takeWhile (fun c => ¬ c = '\n')
      match s.drop line.length with
      | [] => [line]
      | _ :: rs => (line ++ ['\n']) :: pyReadlinesGo fuel rs

def pyReadlines (s : Str) : List Str := pyReadlinesGo (s.length + 1) s

/-- `CodeDiff.__init__` (diff2HtmlCompare.py lines 291-317): each side
reads `readlines()` of the file when no raw text is given, otherwise
splits the text blob; the joined lines are captured as
`leftcode`/`rightcode`. -/
def codeDiffInit (fromfileContent tofileContent : Str)
    (fromtxt totxt : Option Str) : CodeDiffState :=
  let fl := match fromtxt with
    | none => pyReadlines fromfileContent
    | some t => linesFromTxt t
  let tl := match totxt with
    | none => pyReadlines tofileContent
    | some t => linesFromTxt t
  { fromlines := fl, tolines := tl, leftcode := fl.join, rightcode := tl.join }

/-- `CodeDiff.getDiffDetails` as a state transformer: the method reassigns
`self.fromlines` and `self.tolines` to their tab-expanded forms and
returns the `_mdiff` list; no other attribute is touched. -/
def getDiffDetailsRun (st : CodeDiffState) (context : Bool)
    (numlines tabSize : Nat) : CodeDiffState × List MdiffEntry :=
  let fl := st.fromlines.map (expand_tabs tabSize)
  let tl := st.tolines.map (expand_tabs tabSize)
  ({ st with fromlines := fl, tolines := tl },
   mdiff fl tl (if context then some numlines else none) none
     (some IS_CHARACTER_JUNK))

/-- The texts `CodeDiff.format` hands to the highlighter
(diff2HtmlCompare.py lines 345-375): after running
`self.getDiffDetails(self.fromfile, self.tofile)` (defaults
`context=False, numlines=5, tabSize=8`), the two panes highlight
`self.leftcode` and `self.rightcode`. -/
def formatHighlightInputs (st : CodeDiffState) : Str × Str :=
  let r := getDiffDetailsRun st false 5 8
  (r.1.leftcode, r.1.rightcode)

/-!
## Properties of expand_tabs (claim C2)
-/

theorem pyReplace_of_not_mem {a b : Char} {s : Str} (h : a ∉ s) :
    pyReplace a b s = s := by
  induction s with
  | nil => rfl
  | cons c cs ih =>
    simp only [List.mem_cons, not_or] at h
    simp only [pyReplace, List.map_cons]
    rw [if_neg (fun hc => h.1 hc.symm)]
    have := ih h.2
    simp only [pyReplace] at this
    rw [this]

theorem pyExpandtabs_of_not_tab {s : Str} (h : '\t' ∉ s) :
    ∀ ts col, pyExpandtabsGo ts col s = s := by
  induction s with
  | nil => intro ts col; rfl
  | cons c cs ih =>
    intro ts col
    simp only [List.mem_cons, not_or] at h
    rw [pyExpandtabsGo, if_neg (fun hc => h.1 hc.symm)]
    by_cases hn : c = '\n' ∨ c = '\r'
    · rw [if_pos hn, ih h.2]
    · rw [if_neg hn, ih h.2]

theorem not_mem_pyReplace_src {a b : Char} (hab : a ≠ b) (s : Str) :
    a ∉ pyReplace a b s := by
  intro hmem
  simp only [pyReplace, List.mem_map] at hmem
  rcases hmem with ⟨c, _, hc⟩
  by_cases h : c = a
  · rw [if_pos h] at hc; exact hab hc.symm
  · rw [if_neg h] at hc; exact h hc

theorem pyReplace_cancel {s : Str} (h : '\x00' ∉ s) :
    pyReplace '\x00' ' ' (pyReplace ' ' '\x00' s) = s := by
  induction s with
  | nil => rfl
  | cons c cs ih =>
    simp only [List.mem_cons, not_or] at h
    simp only [pyReplace, List.map_cons, List.map_map] at ih ⊢
    by_cases hc : c = ' '
    · simp only [if_pos hc, if_pos rfl]
      rw [hc]
      exact congrArg _ (ih h.2)
    · rw [if_neg hc, if_neg (fun hz => h.1 hz.symm)]
      exact congrArg _ (ih h.2)

theorem dropWhile_of_not_head {p : Char → Bool} {s : Str}
    (h : ∀ c ∈ s, ¬ p c) : s.dropWhile p = s := by
  cases s with
  | nil => rfl
  | cons c cs =>
    rw [List.dropWhile_cons, if_neg]
    simp only [Bool.not_eq_true]
    exact Bool.not_eq_true _ ▸ (by
      have := h c (List.mem_cons_self c cs)
      simpa using this)

theorem pyRstripNl_of_not_mem {s : Str} (h : '\n' ∉ s) :
    pyRstripNl s = s := by
  unfold pyRstripNl
  rw [dropWhile_of_not_head, List.reverse_reverse]
  intro c hc
  simp only [decide_eq_true_eq]
  intro hcn
  exact h (hcn ▸ List.mem_reverse.1 hc)

/-- `rstrip("\n")` leaves any string not ending in a newline unchanged:
interior newlines are untouched, only trailing ones are stripped. -/
theorem pyRstripNl_of_getLast {s : Str} (h : s.getLast? ≠ some '\n') :
    pyRstripNl s = s := by
  unfold pyRstripNl
  rcases hr : s.reverse with _ | ⟨c, cs⟩
  · have hs : s = [] := List.reverse_eq_nil_iff.1 hr
    subst hs
    rfl
  · have hc : ¬ (c = '\n') := by
      intro hcn
      apply h
      rw [← List.head?_reverse, hr]
      simp [hcn]
    rw [List.dropWhile_cons, if_neg (by simpa using hc), ← hr,
      List.reverse_reverse]

/-- Count bookkeeping for a single-character replace. -/
theorem count_pyReplace (a b : Char) (s : Str) (hab : a ≠ b) :
    (pyReplace a b s).count b = s.count a + s.count b ∧
    (pyReplace a b s).count a = 0 ∧
    ∀ c, c ≠ a → c ≠ b → (pyReplace a b s).count c = s.count c := by
  induction s with
  | nil => exact ⟨rfl, rfl, fun c _ _ => rfl⟩
  | cons d ds ih =>
    simp only [pyReplace, List.map_cons] at ih ⊢
    have hba : (b == a) = false := beq_eq_false_iff_ne.2 (Ne.symm hab)
    have hab' : (a == b) = false := beq_eq_false_iff_ne.2 hab
    by_cases hd : d = a
    · subst hd
      refine ⟨?_, ?_, ?_⟩
      · simp [List.count_cons, hba, hab', ih.1]
        omega
      · simp [List.count_cons, hba, hab', ih.2.1]
      · intro c hca hcb
        have e1 : (b == c) = false := beq_eq_false_iff_ne.2 (Ne.symm hcb)
        have e2 : (d == c) = false := beq_eq_false_iff_ne.2 (Ne.symm hca)
        simp [List.count_cons, e1, e2, ih.2.2 c hca hcb]
    · refine ⟨?_, ?_, ?_⟩
      · simp [List.count_cons, hd, beq_eq_false_iff_ne.2 hd, ih.1]
        omega
      · simp [List.count_cons, hd, beq_eq_false_iff_ne.2 hd, ih.2.1]
      · intro c hca hcb
        simp [List.count_cons, hd, ih.2.2 c hca hcb]

/-- `expandtabs` only rewrites tabs into spaces: the count of any other
character is preserved. -/
theorem count_pyExpandtabsGo (c : Char) (hct : c ≠ '\t') (hcs : c ≠ ' ') :
    ∀ (s : Str) (ts col : Nat), (pyExpandtabsGo ts col s).count c = s.count c := by
  intro s
  induction s with
  | nil => intro ts col; rfl
  | cons d ds ih =>
    intro ts col
    have hrep : ∀ n, (List.replicate n ' ').count c = 0 := by
      intro n
      simp [List.count_replicate, hcs, Ne.symm hcs]
    rw [pyExpandtabsGo]
    by_cases hd : d = '\t'
    · have hdc : (d == c) = false := beq_eq_false_iff_ne.2 (hd ▸ Ne.symm hct)
      rw [if_pos hd]
      by_cases hts : ts > 0
      · rw [if_pos hts, List.count_append, List.count_cons, hrep, ih]
        simp [hdc]
      · rw [if_neg hts, List.count_cons, ih]
        simp [hdc]
    · rw [if_neg hd]
      by_cases hn : d = '\n' ∨ d = '\r'
      · rw [if_pos hn, List.count_cons, List.count_cons, ih]
      · rw [if_neg hn, List.count_cons, List.count_cons, ih]

theorem count_dropWhileNl (c : Char) (hc : c ≠ '\n') :
    ∀ s : Str, (s.dropWhile (fun d => d = '\n')).count c = s.count c := by
  intro s
  induction s with
  | nil => rfl
  | cons d ds ih =>
    rw [List.dropWhile_cons]
    by_cases hd : d = '\n'
    · have hdc : (d == c) = false := beq_eq_false_iff_ne.2 (hd ▸ Ne.symm hc)
      rw [if_pos (by simp [hd]), ih, List.count_cons]
      simp [hdc]
    · rw [if_neg (by simp [hd])]

theorem count_pyRstripNl (c : Char) (hc : c ≠ '\n') (s : Str) :
    (pyRstripNl s).count c = s.count c := by
  unfold pyRstripNl
  rw [List.count_reverse, count_dropWhileNl c hc, List.count_reverse]

theorem not_tab_mem_shielded {l : Str} (h : '\t' ∉ l) :
    '\t' ∉ pyReplace ' ' '\x00' l := by
  intro hm
  simp only [pyReplace, List.mem_map] at hm
  obtain ⟨c, hcl, hce⟩ := hm
  by_cases hc : c = ' '
  · rw [if_pos hc] at hce
    exact absurd hce (by decide)
  · rw [if_neg hc] at hce
    exact h (hce ▸ hcl)

/-- Claim C2, counterexamples.  First: at tab width 8, `expand_tabs "a\tb"`
is not `"a"` followed by seven spaces followed by `"b"` — the expansion
artifacts are re-encoded as seven tab characters (the code's comment: they
are placeholders to "replace them with markup after we do differencing").
Second: a line containing the NUL shield character is corrupted — the
tab-free line `"\x00"`, with no trailing newline, is not returned
unchanged, and its space count is not preserved: the restore pass turns
the pre-existing NUL into a space. -/
theorem c2_tab_expansion_cex :
    (expand_tabs 8 (sL "a\tb") ≠ sL "a       b" ∧
      expand_tabs 8 (sL "a\tb") = sL "a\t\t\t\t\t\t\tb") ∧
    (expand_tabs 8 (sL "\x00") ≠ sL "\x00" ∧
      expand_tabs 8 (sL "\x00") = sL " " ∧
      (expand_tabs 8 (sL "\x00")).count ' ' ≠ (sL "\x00").count ' ') := by
  exact ⟨⟨by decide, by decide⟩, by decide, by decide, by decide⟩

/-- Claim C2 (amended): at tab width 8 the line `"a\tb"` expands to `"a"`
followed by seven TAB characters followed by `"b"` (not spaces); a line
free of tabs and of the NUL shield character that does not end in a
newline is returned unchanged; and pre-existing space characters are never
altered or duplicated (their count is preserved) for every NUL-free line. -/
theorem c2_tab_expansion :
    expand_tabs 8 (sL "a\tb") = sL "a" ++ List.replicate 7 '\t' ++ sL "b" ∧
    (∀ (ts : Nat) (l : Str), '\t' ∉ l → l.getLast? ≠ some '\n' → '\x00' ∉ l →
      expand_tabs ts l = l) ∧
    (∀ (ts : Nat) (l : Str), '\x00' ∉ l →
      (expand_tabs ts l).count ' ' = l.count ' ') := by
  refine ⟨by decide, ?_, ?_⟩
  · intro ts l h1 h2 h3
    have htab := not_tab_mem_shielded h1
    have e1 : pyExpandtabs ts (pyReplace ' ' '\x00' l) = pyReplace ' ' '\x00' l :=
      pyExpandtabs_of_not_tab htab ts 0
    have e2 : pyReplace ' ' '\t' (pyReplace ' ' '\x00' l) =
        pyReplace ' ' '\x00' l :=
      pyReplace_of_not_mem (not_mem_pyReplace_src (by decide) l)
    show pyRstripNl (pyReplace '\x00' ' '
      (pyReplace ' ' '\t' (pyExpandtabs ts (pyReplace ' ' '\x00' l)))) = l
    rw [e1, e2, pyReplace_cancel h3, pyRstripNl_of_getLast h2]
  · intro ts l h3
    have hz : l.count '\x00' = 0 := List.count_eq_zero.2 h3
    have c1 := count_pyReplace ' ' '\x00' l (by decide)
    have c2 := count_pyExpandtabsGo '\x00' (by decide) (by decide)
      (pyReplace ' ' '\x00' l) ts 0
    have c2b : (pyExpandtabs ts (pyReplace ' ' '\x00' l)).count '\x00' =
        (pyReplace ' ' '\x00' l).count '\x00' := c2
    have c3 := count_pyReplace ' ' '\t'
      (pyExpandtabs ts (pyReplace ' ' '\x00' l)) (by decide)
    have c4 := count_pyReplace '\x00' ' '
      (pyReplace ' ' '\t' (pyExpandtabs ts (pyReplace ' ' '\x00' l)))
      (by decide)
    have c5 := count_pyRstripNl ' ' (by decide)
      (pyReplace '\x00' ' '
        (pyReplace ' ' '\t' (pyExpandtabs ts (pyReplace ' ' '\x00' l))))
    have c3b := c3.2.2 '\x00' (by decide) (by decide)
    show (pyRstripNl (pyReplace '\x00' ' '
      (pyReplace ' ' '\t' (pyExpandtabs ts (pyReplace ' ' '\x00' l))))).count ' ' =
      l.count ' '
    rw [c5, c4.1, c3.2.1, c3b, c2b]
    omega

/-- Witness for claim C2 at concrete inputs; the unchanged-line part is
exercised on a line with an interior newline. -/
theorem c2_tab_expansion_witness :
    expand_tabs 3 (sL " a\nb c") = sL " a\nb c" ∧
    (expand_tabs 8 (sL " a\tb ")).count ' ' = (sL " a\tb ").count ' ' := by
  exact ⟨c2_tab_expansion.2.1 3 (sL " a\nb c") (by decide) (by decide) (by decide),
    c2_tab_expansion.2.2 8 (sL " a\tb ") (by decide)⟩

/-!
## Claim C8: pure insertion / pure deletion
-/

/-- Claim C8: diffing the empty line sequence against `["a", "b"]` with
context disabled yields exactly two pairs, both changed, both with the
left line number absent and right line numbers 1 and 2; symmetrically for
`["a", "b"]` against the empty sequence. -/
theorem c8_pure_insertion_deletion :
    getDiffDetails [] [sL "a", sL "b"] false 5 8 =
      [some ((none, sL "\n"), (some 1, sL "\x00+a\x01"), true),
       some ((none, sL "\n"), (some 2, sL "\x00+b\x01"), true)] ∧
    getDiffDetails [sL "a", sL "b"] [] false 5 8 =
      [some ((some 1, sL "\x00-a\x01"), (none, sL "\n"), true),
       some ((some 2, sL "\x00-b\x01"), (none, sL "\n"), true)] := by
  exact ⟨by decide, by decide⟩

/-!
## Claim C10: raw-text construction versus file reading
-/

theorem splitOnNl_ne_nil (s : Str) : splitOnNl s ≠ [] := by
  cases s with
  | nil => simp [splitOnNl]
  | cons c cs =>
    simp only [splitOnNl]
    by_cases hc : c = '\n'
    · simp [hc]
    · rw [if_neg hc]
      rcases splitOnNl cs with _ | ⟨h, t⟩ <;> simp

theorem pyReadlinesGo_fuel_irrel :
    ∀ (f1 f2 : Nat) (s : Str), s.length < f1 → s.length < f2 →
      pyReadlinesGo f1 s = pyReadlinesGo f2 s := by
  intro f1
  induction f1 with
  | zero => intro f2 s h1 _; omega
  | succ g ih =>
    intro f2 s h1 h2
    cases f2 with
    | zero => omega
    | succ g2 =>
      simp only [pyReadlinesGo]
      by_cases hs : s = []
      · simp [hs]
      · rw [if_neg hs, if_neg hs]
        rcases hd : s.drop (s.takeWhile (fun c => ¬ c = '\n')).length with _ | ⟨c, rs⟩
        · rfl
        · have hlen : rs.length < s.length := by
            have := congrArg List.length hd
            simp only [List.length_drop, List.length_cons] at this
            have hne : s.length ≠ 0 := fun hz => hs (List.length_eq_zero.1 hz)
            omega
          exact congrArg _ (ih g2 rs (by omega) (by omega))

theorem pyReadlines_cons_nl (cs : Str) :
    pyReadlines ('\n' :: cs) = ['\n'] :: pyReadlines cs := by
  show pyReadlinesGo (cs.length + 2) ('\n' :: cs) = _
  simp only [pyReadlinesGo]
  rw [if_neg (by simp)]
  have ht : ('\n' :: cs).takeWhile (fun c => ¬ c = '\n') = [] := by
    simp [List.takeWhile_cons]
  rw [ht]
  simp only [List.length_nil, List.drop_zero]
  rfl

theorem pyReadlines_eq (s : Str) (hs : s ≠ []) :
    pyReadlines s =
      match s.drop (s.takeWhile (fun c => ¬ c = '\n')).length with
      | [] => [s.takeWhile (fun c => ¬ c = '\n')]
      | _ :: rs => (s.takeWhile (fun c => ¬ c = '\n') ++ ['\n']) :: pyReadlines rs := by
  show pyReadlinesGo (s.length + 1) s = _
  rw [show s.length + 1 = s.length + 1 from rfl]
  conv_lhs => rw [pyReadlinesGo]
  rw [if_neg hs]
  dsimp only
  rcases hd : s.drop (s.takeWhile (fun c => ¬ c = '\n')).length with _ | ⟨e, rs⟩
  · rfl
  · have hlen : rs.length < s.length := by
      have := congrArg List.length hd
      simp only [List.length_drop, List.length_cons] at this
      have hne : s.length ≠ 0 := fun hz => hs (List.length_eq_zero.1 hz)
      omega
    dsimp only
    rw [pyReadlinesGo_fuel_irrel s.length (rs.length + 1) rs hlen (by omega)]
    rfl

theorem pyReadlines_cons (c : Char) (cs : Str) (hc : ¬ c = '\n') (hcs : cs ≠ []) :
    pyReadlines (c :: cs) =
      match pyReadlines cs with
      | [] => [[c]]
      | l :: ls => (c :: l) :: ls := by
  have ht : (c :: cs).takeWhile (fun x => ¬ x = '\n') =
      c :: cs.takeWhile (fun x => ¬ x = '\n') := by
    simp [List.takeWhile_cons, hc]
  rw [pyReadlines_eq (c :: cs) (by simp), pyReadlines_eq cs hcs, ht]
  simp only [List.length_cons, List.drop_succ_cons]
  rcases hd : cs.drop (cs.takeWhile (fun x => ¬ x = '\n')).length with _ | ⟨e, rs⟩
  · rfl
  · rfl

theorem pyReadlines_eq_nil_iff (s : Str) : pyReadlines s = [] ↔ s = [] := by
  constructor
  · intro h
    by_contra hs
    rw [pyReadlines_eq s hs] at h
    rcases hd : s.drop (s.takeWhile (fun c => ¬ c = '\n')).length with _ | ⟨e, rs⟩ <;>
      rw [hd] at h <;> exact absurd h (by simp)
  · intro h; rw [h]; rfl

/-- On content ending in a newline, the raw-text route produces the
`readlines` lines plus one extra `"\n"` line. -/
theorem linesFromTxt_eq_readlines_append :
    ∀ txt : Str, txt.getLast? = some '\n' →
      linesFromTxt txt = pyReadlines txt ++ [['\n']] := by
  intro txt
  induction txt with
  | nil => intro h; simp at h
  | cons c cs ih =>
    intro h
    rcases hcs : cs with _ | ⟨d, ds⟩
    · rw [hcs] at h
      simp only [List.getLast?_singleton, Option.some.injEq] at h
      subst h
      rfl
    · rw [← hcs]
      have hcs' : cs ≠ [] := by rw [hcs]; simp
      have hlast : cs.getLast? = some '\n' := by
        rw [hcs] at h ⊢
        rw [List.getLast?_cons_cons] at h
        exact h
      have ihc := ih hlast
      by_cases hc : c = '\n'
      · subst hc
        rw [pyReadlines_cons_nl]
        show ((splitOnNl ('\n' :: cs)).map (fun n => n ++ ['\n'])) = _
        simp only [splitOnNl, if_pos rfl, if_true, List.map_cons, List.nil_append]
        rw [show ((splitOnNl cs).map (fun n => n ++ ['\n'])) = linesFromTxt cs from rfl, ihc]
        rfl
      · rw [pyReadlines_cons c cs hc hcs']
        rcases hpr : pyReadlines cs with _ | ⟨l, ls⟩
        · exact absurd ((pyReadlines_eq_nil_iff cs).1 hpr) hcs'
        · show ((splitOnNl (c :: cs)).map (fun n => n ++ ['\n'])) = _
          simp only [splitOnNl, if_neg hc]
          rcases hsp : splitOnNl cs with _ | ⟨h0, t0⟩
          · exact absurd hsp (splitOnNl_ne_nil cs)
          · have : linesFromTxt cs = (h0 ++ ['\n']) :: t0.map (fun n => n ++ ['\n']) := by
              show (splitOnNl cs).map (fun n => n ++ ['\n']) = _
              rw [hsp]; rfl
            rw [ihc, hpr] at this
            simp only [List.cons_append, List.cons.injEq] at this
            simp only [List.map_cons, List.cons_append, List.cons.injEq]
            constructor
            · rw [← this.1]
              exact ⟨trivial, rfl⟩
            · rw [← this.2]


/-- Claim C10: when a `CodeDiff` is built from a raw text blob, the line
list appends `"\n"` to every `split("\n")` piece including the last, so
for every content ending in a newline the blob route produces exactly the
`readlines()` lines plus one extra trailing `"\n"` line, and the two
construction routes can give different aligned sequences for the same
content. -/
theorem c10_raw_text_route :
    (∀ txt : Str, txt.getLast? = some '\n' →
      (codeDiffInit txt txt (some txt) (some txt)).fromlines =
        (codeDiffInit txt txt none none).fromlines ++ [['\n']]) ∧
    (getDiffDetailsRun
        (codeDiffInit (sL "a\n") (sL "a\n") (some (sL "a\n")) (some (sL "a\n")))
        false 5 8).2 ≠
      (getDiffDetailsRun (codeDiffInit (sL "a\n") (sL "a\n") none none)
        false 5 8).2 :=
  ⟨fun txt h => linesFromTxt_eq_readlines_append txt h, by decide⟩

/-- Witness for claim C10 at a concrete newline-terminated content. -/
theorem c10_raw_text_route_witness :
    (codeDiffInit (sL "a\n") (sL "a\n") (some (sL "a\n"))
        (some (sL "a\n"))).fromlines =
      (codeDiffInit (sL "a\n") (sL "a\n") none none).fromlines ++ [['\n']] :=
  c10_raw_text_route.1 (sL "a\n") (by decide)

/-- Claim C9: `getDiffDetails` reassigns only `fromlines`/`tolines`; the
`leftcode`/`rightcode` blobs captured at construction are untouched, so
`format` always highlights the original text, never the tab-expanded
alignment lines. -/
theorem c9_highlight_original_text :
    ∀ (st : CodeDiffState) (context : Bool) (numlines tabSize : Nat),
      (getDiffDetailsRun st context numlines tabSize).1.leftcode = st.leftcode ∧
      (getDiffDetailsRun st context numlines tabSize).1.rightcode = st.rightcode ∧
      formatHighlightInputs st = (st.leftcode, st.rightcode) :=
  fun _ _ _ _ => ⟨rfl, rfl, rfl⟩

/-!
## Claims C3, C4, C5: the formatter's fallback, skip and column behavior
-/

/-- Claim C3, counterexample: a CHANGED pair whose line number points past
the end of the highlighted stream is not rendered from its raw text — the
`left_no <= len(source)` guards make the elif chain fall through to the
bare `raise`, and the pair is skipped entirely (only the `<pre>` wrappers
remain).  The raw-text fallback exists only for unchanged pairs. -/
theorem c3_out_of_range_cex :
    wrap_code true [] [((some 1, sL "x"), (some 1, sL "y"), true)] =
      [(0, sL "<pre>"), (0, sL "\n</pre>")] ∧
    processPair true [] ((some 1, sL "x"), (some 1, sL "y"), true) = none := by
  exact ⟨by decide, by decide⟩

/-- Claim C3 (amended): for an UNCHANGED pair whose line number on the
rendered side points past the end of the highlighted stream, `_wrap_code`
falls back to the pair's raw line text for this side (emitted as
`(1, text)`); a changed pair in the same situation is skipped instead. -/
theorem c3_raw_text_fallback (source : List (Nat × Str)) (p : PairT)
    (l r : Nat) (hnc : p.2.2 = false) :
    (p.1.1 = some l → source.length < l →
      processPair true source p = some (1, p.1.2)) ∧
    (p.2.1.1 = some r → source.length < r →
      processPair false source p = some (1, p.2.1.2)) := by
  rcases p with ⟨⟨ln, lt⟩, ⟨⟨rn, rt⟩, ch⟩⟩
  dsimp only at hnc
  subst hnc
  constructor
  · intro hl hout
    dsimp only at hl
    subst hl
    simp only [processPair]
    rw [if_pos trivial, if_neg (by decide)]
    rw [if_neg (by omega)]
  · intro hr hout
    dsimp only at hr
    subst hr
    simp only [processPair]
    rw [if_neg (by decide), if_neg (by decide)]
    rw [if_neg (by omega)]

/-- Witness for claim C3: an unchanged pair numbered past a two-line
stream is rendered from its raw text on both sides. -/
theorem c3_raw_text_fallback_witness :
    processPair true [(1, sL "h")] ((some 2, sL "x"), (some 2, sL "y"), false) =
      some (1, sL "x") ∧
    processPair false [(1, sL "h")] ((some 2, sL "x"), (some 2, sL "y"), false) =
      some (1, sL "y") :=
  ⟨(c3_raw_text_fallback [(1, sL "h")] ((some 2, sL "x"), (some 2, sL "y"), false)
      2 2 rfl).1 rfl (by decide),
   (c3_raw_text_fallback [(1, sL "h")] ((some 2, sL "x"), (some 2, sL "y"), false)
      2 2 rfl).2 rfl (by decide)⟩

/-- Claim C4: a pair whose `try` block raises is skipped on its own — the
rest of the diff list renders exactly as if the pair were absent, and the
output keeps its opening and closing `pre` markup. -/
theorem c4_skip_single_pair (isLeft : Bool) (source : List (Nat × Str))
    (ds1 ds2 : List PairT) (p : PairT)
    (h : processPair isLeft source p = none) :
    wrap_code isLeft source (ds1 ++ p :: ds2) =
      wrap_code isLeft source (ds1 ++ ds2) ∧
    (wrap_code isLeft source (ds1 ++ p :: ds2)).head? =
      some (0, sL "<pre>") ∧
    (wrap_code isLeft source (ds1 ++ p :: ds2)).getLast? =
      some (0, sL "\n</pre>") := by
  refine ⟨?_, rfl, ?_⟩
  · unfold wrap_code
    rw [List.filterMap_append, List.filterMap_append, List.filterMap_cons, h]
  · unfold wrap_code
    rw [List.getLast?_cons, List.getLast?_append_cons, List.getLast?_singleton]
    simp

/-- Witness for claim C4: the malformed no-sided changed pair between two
good pairs is dropped while both neighbours render. -/
theorem c4_skip_single_pair_witness :
    wrap_code true [(1, sL "h")]
        ([((some 1, sL "a"), (some 1, sL "a"), false)] ++
          ((none, sL "x"), (none, sL "y"), true) ::
          [((some 1, sL "b"), (some 1, sL "b"), false)]) =
      wrap_code true [(1, sL "h")]
        ([((some 1, sL "a"), (some 1, sL "a"), false)] ++
          [((some 1, sL "b"), (some 1, sL "b"), false)]) :=
  (c4_skip_single_pair true [(1, sL "h")]
      [((some 1, sL "a"), (some 1, sL "a"), false)]
      [((some 1, sL "b"), (some 1, sL "b"), false)]
      ((none, sL "x"), (none, sL "y"), true) (by decide)).1

theorem length_filterMap_add_skipped {α β : Type} (f : α → Option β) :
    ∀ l : List α,
      l.length = (l.filterMap f).length +
        (l.filter (fun x => (f x).isNone)).length := by
  intro l
  induction l with
  | nil => rfl
  | cons a as ih =>
    rw [List.filterMap_cons, List.filter_cons]
    rcases hf : f a with _ | b
    · simp only [hf, Option.isNone_none, if_true, List.length_cons]
      omega
    · simp only [hf, Option.isNone_some, Bool.false_eq_true, if_false,
        List.length_cons]
      omega

/-- Claim C5, counterexample: `getDiffLineNos` appends one marker per
aligned pair unconditionally (even the unassigned `None` of a no-sided
pair), while `_wrap_code` drops every pair whose `try` block raises, so
the marker column can be strictly longer than the content column. -/
theorem c5_column_mismatch_cex :
    (getDiffLineNos true [((none, sL "x"), (none, sL "y"), true)]).length ≠
      (([((none, sL "x"), (none, sL "y"), true)] :
          List PairT).filterMap (processPair true [])).length := by
  decide

/-- Claim C5 (amended): the marker column has one entry per aligned pair;
the content column of `_wrap_code` has one entry per surviving pair plus
the two `pre` wrapper lines, so markers = content lines + skipped pairs,
with equality of the two columns exactly when no pair is skipped. -/
theorem c5_column_alignment (isLeft : Bool) (source : List (Nat × Str))
    (diffs : List PairT) :
    (getDiffLineNos isLeft diffs).length = diffs.length ∧
    (wrap_code isLeft source diffs).length =
      (diffs.filterMap (processPair isLeft source)).length + 2 ∧
    (getDiffLineNos isLeft diffs).length =
      (diffs.filterMap (processPair isLeft source)).length +
        (diffs.filter (fun p => (processPair isLeft source p).isNone)).length ∧
    ((∀ p ∈ diffs, processPair isLeft source p ≠ none) →
      (getDiffLineNos isLeft diffs).length =
        (diffs.filterMap (processPair isLeft source)).length) := by
  have h1 : (getDiffLineNos isLeft diffs).length = diffs.length :=
    List.length_map _ _
  have h2 : (wrap_code isLeft source diffs).length =
      (diffs.filterMap (processPair isLeft source)).length + 2 := by
    unfold wrap_code
    rw [List.length_cons, List.length_append, List.length_singleton]
  have h3 := length_filterMap_add_skipped (processPair isLeft source) diffs
  refine ⟨h1, h2, by rw [h1]; exact h3, ?_⟩
  intro hall
  have hz : (diffs.filter (fun p => (processPair isLeft source p).isNone)).length = 0 := by
    rw [List.length_eq_zero, List.filter_eq_nil]
    intro p hp
    simp only [Option.isNone_iff_eq_none]
    exact hall p hp
  rw [h1, h3, hz]
  omega

/-- Witness for claim C5 on a concrete skip-free diff list. -/
theorem c5_column_alignment_witness :
    (getDiffLineNos true [((some 1, sL "a"), (some 1, sL "a"), false)]).length =
      (([((some 1, sL "a"), (some 1, sL "a"), false)] :
          List PairT).filterMap (processPair true [(1, sL "h")])).length :=
  (c5_column_alignment true [(1, sL "h")]
      [((some 1, sL "a"), (some 1, sL "a"), false)]).2.2.2 (by decide)


/-!
## Assembly: the aligned-pair sequence with context disabled
-/

theorem filterMap_bind_map_some {γ δ : Type} (g : γ → Option δ) :
    ∀ l : List γ,
      (l.map some).filterMap (fun e => e.bind g) = l.filterMap g := by
  intro l
  induction l with
  | nil => rfl
  | cons x l ih =>
    rcases hg : g x with _ | y <;>
      simp only [List.map_cons, List.filterMap_cons, Option.some_bind, hg, ih]

theorem countP_isSome_eq_length_filterMap {γ δ : Type} (f : γ → Option δ) :
    ∀ l : List γ,
      l.countP (fun x => (f x).isSome) = (l.filterMap f).length := by
  intro l
  induction l with
  | nil => rfl
  | cons x l ih =>
    rw [List.countP_cons, List.filterMap_cons]
    rcases hf : f x with _ | y
    · simp [hf, ih]
    · simp [hf, ih]

theorem zipWith_fst_filterMap :
    ∀ (F T : List (LineTup × Bool)), F.length = T.length →
    (List.zipWith (fun f t => (f.1, t.1, f.2 || t.2)) F T).filterMap
      (fun pr : PairT => pr.1.1) = numsOf F := by
  intro F
  induction F with
  | nil => intro T _; rfl
  | cons e F ih =>
    intro T hlen
    match T with
    | [] => simp at hlen
    | g :: T =>
      rw [List.zipWith_cons_cons]
      unfold numsOf
      rcases he : e.1.1 with _ | k
      · rw [List.filterMap_cons_none (by simpa using he),
          List.filterMap_cons_none (by simpa using he)]
        exact ih T (by simpa using hlen)
      · rw [List.filterMap_cons_some (by simpa using he),
          List.filterMap_cons_some (by simpa using he),
          ih T (by simpa using hlen)]
        rfl

theorem zipWith_snd_filterMap :
    ∀ (F T : List (LineTup × Bool)), F.length = T.length →
    (List.zipWith (fun f t => (f.1, t.1, f.2 || t.2)) F T).filterMap
      (fun pr : PairT => pr.2.1.1) = numsOf T := by
  intro F
  induction F with
  | nil =>
    intro T hlen
    match T with
    | [] => rfl
  | cons e F ih =>
    intro T hlen
    match T with
    | [] => simp at hlen
    | g :: T =>
      rw [List.zipWith_cons_cons]
      unfold numsOf
      rcases hg : g.1.1 with _ | k
      · rw [List.filterMap_cons_none (by simpa using hg),
          List.filterMap_cons_none (by simpa using hg)]
        exact ih T (by simpa using hlen)
      · rw [List.filterMap_cons_some (by simpa using hg),
          List.filterMap_cons_some (by simpa using hg),
          ih T (by simpa using hlen)]
        rfl

theorem noDB_zero_tail {e1 e2 : LineTup × Bool} {F T : List (LineTup × Bool)}
    (h : noDB 0 (e1 :: F) (e2 :: T)) : noDB 0 F T := by
  intro j hF hT
  refine h (j + 1) ?_ ?_
  · show entryFiller ((e1 :: F)[(j + 1) + (0 : Int).toNat]?)
    rw [show (j + 1) + (0 : Int).toNat = (j + (0 : Int).toNat) + 1 from rfl,
      List.getElem?_cons_succ]
    exact hF
  · show entryFiller ((e2 :: T)[(j + 1) + (-(0 : Int)).toNat]?)
    rw [show (j + 1) + (-(0 : Int)).toNat = (j + (-(0 : Int)).toNat) + 1 from rfl,
      List.getElem?_cons_succ]
    exact hT

theorem zip_pairs_have_side :
    ∀ (F T : List (LineTup × Bool)), noDB 0 F T →
    ∀ pr ∈ List.zipWith (fun f t => (f.1, t.1, f.2 || t.2)) F T,
      pr.1.1 ≠ none ∨ pr.2.1.1 ≠ none := by
  intro F
  induction F with
  | nil => intro T _ pr hpr; simp at hpr
  | cons e F ih =>
    intro T hdb pr hpr
    match T with
    | [] => simp at hpr
    | g :: T =>
      rw [List.zipWith_cons_cons] at hpr
      rcases List.mem_cons.1 hpr with h | h
      · by_cases he : e.1.1 = none
        · right
          intro hg
          refine hdb 0 ?_ ?_
          · show entryFiller ((e :: F)[0 + (0 : Int).toNat]?)
            rw [show (0 : Nat) + (0 : Int).toNat = 0 from rfl,
              List.getElem?_cons_zero]
            exact he
          · show entryFiller ((g :: T)[0 + (-(0 : Int)).toNat]?)
            rw [show (0 : Nat) + (-(0 : Int)).toNat = 0 from rfl,
              List.getElem?_cons_zero]
            show g.1.1 = none
            have : pr.2.1.1 = g.1.1 := by rw [h]
            rw [← this]
            exact hg
        · left
          intro hc
          exact he (by
            have : pr.1.1 = e.1.1 := by rw [h]
            rw [← this]
            exact hc)
      · exact ih T (noDB_zero_tail hdb) pr h

/-- The zipped pair stream of `_mdiff` without context, for a well-formed
delta: present left numbers are `1..dF`, present right numbers `1..dT`,
and every pair keeps a number on at least one side. -/
theorem pairs_facts {delta : List Str} (hw : WfD delta) (fuel1 fuel2 : Nat)
    (h1 : delta.length < fuel1)
    (h2 : 2 * (lineIterator fuel1 delta 0 0 0).length < fuel2) :
    (linePairIterator fuel2 (lineIterator fuel1 delta 0 0 0) [] []).filterMap
      (fun pr : PairT => pr.1.1) = List.range' 1 (dF delta) ∧
    (linePairIterator fuel2 (lineIterator fuel1 delta 0 0 0) [] []).filterMap
      (fun pr : PairT => pr.2.1.1) = List.range' 1 (dT delta) ∧
    (∀ pr ∈ linePairIterator fuel2 (lineIterator fuel1 delta 0 0 0) [] [],
      pr.1.1 ≠ none ∨ pr.2.1.1 ≠ none) := by
  have hli := lineIterator_spec hw fuel1 h1 0 0 0
  have hFlen : (Fside (lineIterator fuel1 delta 0 0 0)).length ≤
      (lineIterator fuel1 delta 0 0 0).length := List.length_filterMap_le _ _
  have hTlen : (Tside (lineIterator fuel1 delta 0 0 0)).length ≤
      (lineIterator fuel1 delta 0 0 0).length := List.length_filterMap_le _ _
  have hFT : (Fside (lineIterator fuel1 delta 0 0 0)).length =
      (Tside (lineIterator fuel1 delta 0 0 0)).length := by
    have := hli.2.2.1
    omega
  have hzip := linePairIterator_zip fuel2 (lineIterator fuel1 delta 0 0 0)
    [] [] (by simp only [List.length_nil]; omega)
  rw [hzip]
  simp only [List.nil_append]
  refine ⟨?_, ?_, ?_⟩
  · rw [zipWith_fst_filterMap _ _ hFT, hli.1]
  · rw [zipWith_snd_filterMap _ _ hFT, hli.2.1]
  · exact zip_pairs_have_side _ _ hli.2.2.2

/-- Claim C1: with context disabled, `getDiffDetails` pairs every input
line exactly once on its side: the present left line numbers are exactly
`1 .. len(fromlines)` in increasing order, the present right line numbers
exactly `1 .. len(tolines)`, and the counts of pairs with a present left
(right) number equal the input lengths. -/
theorem c1_coverage (fromlines tolines : List Str) (numlines tabSize : Nat) :
    (getDiffDetails fromlines tolines false numlines tabSize).filterMap
      (fun e => e.bind (fun pr : PairT => pr.1.1)) =
      List.range' 1 fromlines.length ∧
    (getDiffDetails fromlines tolines false numlines tabSize).filterMap
      (fun e => e.bind (fun pr : PairT => pr.2.1.1)) =
      List.range' 1 tolines.length ∧
    (getDiffDetails fromlines tolines false numlines tabSize).countP
      (fun e => (e.bind (fun pr : PairT => pr.1.1)).isSome) =
      fromlines.length ∧
    (getDiffDetails fromlines tolines false numlines tabSize).countP
      (fun e => (e.bind (fun pr : PairT => pr.2.1.1)).isSome) =
      tolines.length := by
  have hd := differCompare_spec none (some IS_CHARACTER_JUNK)
    (fromlines.map (expand_tabs tabSize)) (tolines.map (expand_tabs tabSize))
  have hdn : dF (ndiff (fromlines.map (expand_tabs tabSize))
      (tolines.map (expand_tabs tabSize)) none (some IS_CHARACTER_JUNK)) =
      (fromlines.map (expand_tabs tabSize)).length ∧
    dT (ndiff (fromlines.map (expand_tabs tabSize))
      (tolines.map (expand_tabs tabSize)) none (some IS_CHARACTER_JUNK)) =
      (tolines.map (expand_tabs tabSize)).length ∧
    WfD (ndiff (fromlines.map (expand_tabs tabSize))
      (tolines.map (expand_tabs tabSize)) none (some IS_CHARACTER_JUNK)) := hd
  have hp := pairs_facts hdn.2.2
    ((ndiff (fromlines.map (expand_tabs tabSize))
      (tolines.map (expand_tabs tabSize)) none (some IS_CHARACTER_JUNK)).length + 1)
    (3 * (lineIterator
      ((ndiff (fromlines.map (expand_tabs tabSize))
        (tolines.map (expand_tabs tabSize)) none (some IS_CHARACTER_JUNK)).length + 1)
      (ndiff (fromlines.map (expand_tabs tabSize))
        (tolines.map (expand_tabs tabSize)) none (some IS_CHARACTER_JUNK))
      0 0 0).length + 1)
    (by omega) (by omega)
  have hshape : getDiffDetails fromlines tolines false numlines tabSize =
      (linePairIterator
        (3 * (lineIterator
          ((ndiff (fromlines.map (expand_tabs tabSize))
            (tolines.map (expand_tabs tabSize)) none (some IS_CHARACTER_JUNK)).length + 1)
          (ndiff (fromlines.map (expand_tabs tabSize))
            (tolines.map (expand_tabs tabSize)) none (some IS_CHARACTER_JUNK))
          0 0 0).length + 1)
        (lineIterator
          ((ndiff (fromlines.map (expand_tabs tabSize))
            (tolines.map (expand_tabs tabSize)) none (some IS_CHARACTER_JUNK)).length + 1)
          (ndiff (fromlines.map (expand_tabs tabSize))
            (tolines.map (expand_tabs tabSize)) none (some IS_CHARACTER_JUNK))
          0 0 0) [] []).map some := rfl
  rw [hshape, filterMap_bind_map_some, filterMap_bind_map_some]
  have hc1 : List.range' 1
      (dF (ndiff (fromlines.map (expand_tabs tabSize))
        (tolines.map (expand_tabs tabSize)) none (some IS_CHARACTER_JUNK))) =
      List.range' 1 fromlines.length := by
    rw [hdn.1, List.length_map]
  have hc2 : List.range' 1
      (dT (ndiff (fromlines.map (expand_tabs tabSize))
        (tolines.map (expand_tabs tabSize)) none (some IS_CHARACTER_JUNK))) =
      List.range' 1 tolines.length := by
    rw [hdn.2.1, List.length_map]
  refine ⟨hp.1.trans hc1, hp.2.1.trans hc2, ?_, ?_⟩
  · rw [countP_isSome_eq_length_filterMap, filterMap_bind_map_some,
      hp.1.trans hc1, List.length_range']
  · rw [countP_isSome_eq_length_filterMap, filterMap_bind_map_some,
      hp.2.1.trans hc2, List.length_range']

/-- Claim C6, counterexample: with context mode enabled `_mdiff` emits the
separator `(None, None, None)` between change groups; on this input the
very first element of `getDiffDetails` is that separator, which is not an
aligned pair at all, let alone one with a line number on some side. -/
theorem c6_context_separator_cex :
    (getDiffDetails (linesFromTxt (sL "1\n2\n3\n4\n5\n6\n7\nx\n"))
      (linesFromTxt (sL "1\n2\n3\n4\n5\n6\n7\ny\n")) true 2 8).head? =
      some (none : MdiffEntry) := by
  decide

/-- Claim C6 (amended): with context mode disabled, every element of the
sequence produced by `getDiffDetails` is a genuine aligned pair carrying a
line number on at least one side. -/
theorem c6_pair_has_side (fromlines tolines : List Str)
    (numlines tabSize : Nat) :
    ∀ e ∈ getDiffDetails fromlines tolines false numlines tabSize,
      ∃ pr : PairT, e = some pr ∧ (pr.1.1 ≠ none ∨ pr.2.1.1 ≠ none) := by
  intro e he
  have hd := differCompare_spec none (some IS_CHARACTER_JUNK)
    (fromlines.map (expand_tabs tabSize)) (tolines.map (expand_tabs tabSize))
  have hdn : dF (ndiff (fromlines.map (expand_tabs tabSize))
      (tolines.map (expand_tabs tabSize)) none (some IS_CHARACTER_JUNK)) =
      (fromlines.map (expand_tabs tabSize)).length ∧
    dT (ndiff (fromlines.map (expand_tabs tabSize))
      (tolines.map (expand_tabs tabSize)) none (some IS_CHARACTER_JUNK)) =
      (tolines.map (expand_tabs tabSize)).length ∧
    WfD (ndiff (fromlines.map (expand_tabs tabSize))
      (tolines.map (expand_tabs tabSize)) none (some IS_CHARACTER_JUNK)) := hd
  have hp := pairs_facts hdn.2.2
    ((ndiff (fromlines.map (expand_tabs tabSize))
      (tolines.map (expand_tabs tabSize)) none (some IS_CHARACTER_JUNK)).length + 1)
    (3 * (lineIterator
      ((ndiff (fromlines.map (expand_tabs tabSize))
        (tolines.map (expand_tabs tabSize)) none (some IS_CHARACTER_JUNK)).length + 1)
      (ndiff (fromlines.map (expand_tabs tabSize))
        (tolines.map (expand_tabs tabSize)) none (some IS_CHARACTER_JUNK))
      0 0 0).length + 1)
    (by omega) (by omega)
  have hshape : getDiffDetails fromlines tolines false numlines tabSize =
      (linePairIterator
        (3 * (lineIterator
          ((ndiff (fromlines.map (expand_tabs tabSize))
            (tolines.map (expand_tabs tabSize)) none (some IS_CHARACTER_JUNK)).length + 1)
          (ndiff (fromlines.map (expand_tabs tabSize))
            (tolines.map (expand_tabs tabSize)) none (some IS_CHARACTER_JUNK))
          0 0 0).length + 1)
        (lineIterator
          ((ndiff (fromlines.map (expand_tabs tabSize))
            (tolines.map (expand_tabs tabSize)) none (some IS_CHARACTER_JUNK)).length + 1)
          (ndiff (fromlines.map (expand_tabs tabSize))
            (tolines.map (expand_tabs tabSize)) none (some IS_CHARACTER_JUNK))
          0 0 0) [] []).map some := rfl
  rw [hshape] at he
  rcases List.mem_map.1 he with ⟨pr, hmem, hpr⟩
  exact ⟨pr, hpr.symm, hp.2.2 pr hmem⟩

/-- Witness for claim C6 at a concrete input. -/
theorem c6_pair_has_side_witness :
    ∃ pr : PairT,
      (getDiffDetails [sL "a"] [] false 5 8).headD none = some pr ∧
      (pr.1.1 ≠ none ∨ pr.2.1.1 ≠ none) :=
  c6_pair_has_side [sL "a"] [] 5 8
    ((getDiffDetails [sL "a"] [] false 5 8).headD none) (by decide)

/-!
## Claim C7: line junk
-/

/-- Modelled from the spec: a line of pure whitespace is junk. -/
def specLineJunk (l : Str) : Bool := l.all pyIsSpace

/-- Modelled from the spec: `getDiffDetails` as it would read if the
aligner filtered pure-whitespace lines out of the line-level comparison
(`linejunk = specLineJunk` instead of the `None` the code passes). -/
def getDiffDetailsLineJunk (fromlines tolines : List Str) (context : Bool)
    (numlines tabSize : Nat) : List MdiffEntry :=
  mdiff (fromlines.map (expand_tabs tabSize))
    (tolines.map (expand_tabs tabSize))
    (if context then some numlines else none) (some specLineJunk)
    (some IS_CHARACTER_JUNK)

/-- Claim C7, counterexample: the code passes `linejunk=None`, so
whitespace-only lines take part in line matching; on this input the
result differs from the spec-described junk-filtering variant, whose
whitespace handling the claim asserts. -/
theorem c7_linejunk_cex :
    getDiffDetails [sL " ", sL ""] [sL "", sL " "] false 5 8 ≠
      getDiffDetailsLineJunk [sL " ", sL ""] [sL "", sL " "] false 5 8 := by
  decide

/-- Claim C7 (amended): the line-level comparison of `getDiffDetails`
ignores no line: `linejunk` is `None`, under which the matcher's junk set
is empty; only character-level junk (`IS_CHARACTER_JUNK`) is filtered,
inside the intraline refinement. -/
theorem c7_no_line_junk :
    (∀ (fromlines tolines : List Str) (numlines tabSize : Nat),
      getDiffDetails fromlines tolines false numlines tabSize =
        mdiff (fromlines.map (expand_tabs tabSize))
          (tolines.map (expand_tabs tabSize)) none none
          (some IS_CHARACTER_JUNK)) ∧
    (∀ (b : List Str) (x : Str),
      bjunkContains (none : Option (Str → Bool)) b x = false) :=
  ⟨fun _ _ _ _ => rfl, fun _ _ => rfl⟩

end Diff2Html
